import Mathlib

/-!
# adrenc: ancillary data of an ADR (Astra Digital Radio) encoder

A shallow embedding of `src/adrenc.c`.  Bytes (`uint8_t`, `char`) are natural
numbers below 256, buffers are lists of bytes, a pointer into a buffer is an
offset, and a read past the end of a list gives 0.  The twolame encoder is an
external library: its calls are parameters of the model.
-/

namespace Adr

/-! ## Definitions -/

/-- ADR_FRAME_LEN (adrenc.c:26): a 48 kHz, 192 kbit/s frame has 576 bytes. -/
def ADR_FRAME_LEN : Nat := 576

/-- The encoder state `_adrenc_t` (adrenc.c:39-56) without the twolame fields
`mode` and `encopts`.  `cptr` is the offset of the C pointer `cptr` into `cmsg`;
`mp2buffer` holds slot 0 and slot 1.  The counters `frame` and `cindex` are C
`int`s; the model does not wrap them (a wrap of `frame` needs 2^31 frames).
`scfcrc` is an `int` that `main` sets to 0 or 1. -/
structure _adrenc_t where
  station_id : List Nat
  scfcrc : Nat
  mp2buffer : List Nat × List Nat
  frame : Nat
  cptr : Nat
  cmsg : List Nat
  cindex : Nat
  dc4_mode : Nat
deriving DecidableEq, Repr

/-- The (7,4) block code lookup table (adrenc.c:158-160). -/
def _74code : List Nat :=
  [0x00,0x07,0x19,0x1E,0x2A,0x2D,0x33,0x34,0x4B,0x4C,0x52,0x55,0x61,0x66,0x78,0x7F]

/-- The C string that starts a buffer: the bytes before the first zero byte. -/
def cstr (buf : List Nat) : List Nat := buf.takeWhile (fun b => b != 0)

/-- What `snprintf(buf + off, size, ...)` stores when the formatted output is
`out`: at most `size - 1` characters, then a zero byte; nothing for size 0. -/
def snprintf (buf : List Nat) (off size : Nat) (out : List Nat) : List Nat :=
  if size = 0 then buf
  else buf.take off ++ (out.take (size - 1) ++ [0]) ++ buf.drop (off + ((out.take (size - 1)).length + 1))

/-- One upper-case hexadecimal digit, as printf's `%1X` prints a value below 16. -/
def hexdigit (n : Nat) : Nat := if n < 10 then 48 + n else 55 + n

/-- The checksum loop (adrenc.c:202-205) run on the bytes from the cursor on:
`for(...; *s->cptr; s->cptr++) check += *s->cptr & 0x7F;` with `check` a
`uint8_t`.  Returns the final cursor and checksum. -/
def checksum_loop : List Nat → Nat → Nat → Nat × Nat
  | [], p, check => (p, check)
  | b :: bs, p, check =>
    if b = 0 then (p, check) else checksum_loop bs (p + 1) ((check + (b &&& 0x7F)) % 256)

/-- The bytes that `%s` meets from `s->station_id` on: the 32 bytes of the
array, which holds no terminator of its own, then the member `scfcrc` that
follows it in `_adrenc_t` (adrenc.c:43-44), an `int` of four bytes, lowest
byte first.  `main` sets `scfcrc` to 0 or 1, so that a zero byte is met in
`scfcrc` at the latest. -/
def station_id_overread (station_id : List Nat) (scfcrc : Nat) : List Nat :=
  station_id ++ [scfcrc % 256, scfcrc / 256 % 256, scfcrc / 65536 % 256, scfcrc / 16777216 % 256]

/-- The `switch(s->cindex++)` of adrenc.c:179-199: the template written into
`cmsg` with `snprintf(s->cmsg, 39, ...)`.  `%c` stores the mode character as a
byte; `%s` copies the bytes from `station_id` on up to the first zero byte,
be it in the array or, when all 32 bytes of the array are non-zero, in the
`scfcrc` behind it. -/
def message_template (s : _adrenc_t) : _adrenc_t :=
  match s.cindex with
  | 0 => { s with cindex := 1, cmsg := snprintf s.cmsg 0 39 [0x02, 0x11, 0x04] }
  | 1 => { s with cindex := 2,
                  cmsg := snprintf s.cmsg 0 39
                    ([0x02, 0x14] ++ [0x45, 0x31, 0x43, 0x32, 0x30, 0x41] ++ [s.dc4_mode % 256]
                      ++ [0x32] ++ [0x04]) }
  | 2 => { s with cindex := 0,
                  cmsg := snprintf s.cmsg 0 39
                    ([0x02, 0x16] ++ cstr (station_id_overread s.station_id s.scfcrc) ++ [0x23]
                      ++ [0x04]) }
  | n + 3 => { s with cindex := n + 4 }

/-- Generate the next message (adrenc.c:176-211): template, checksum over the
string in `cmsg`, the two checksum digits and ETX appended, cursor reset. -/
def next_message (s : _adrenc_t) : _adrenc_t :=
  let s1 := message_template s
  let pc := checksum_loop s1.cmsg 0 0
  { s1 with
    cmsg := snprintf s1.cmsg pc.1 4 [hexdigit (pc.2 &&& 0x0F), hexdigit (pc.2 >>> 4), 0x03],
    cptr := 0 }

/-- One pass of the control data loop (adrenc.c:174-214): a new message when
the cursor is at the terminator, then `ad[i] = *s->cptr++`. -/
def control_byte (s : _adrenc_t) : Nat × _adrenc_t :=
  let s1 := if s.cmsg.getD s.cptr 0 = 0 then next_message s else s
  (s1.cmsg.getD s1.cptr 0, { s1 with cptr := s1.cptr + 1 })

/-- The loop `for(i = 15; i < 18; i++)` (adrenc.c:172-215): the three control
bytes and the state after them. -/
def control_data (s : _adrenc_t) : List Nat × _adrenc_t :=
  let r15 := control_byte s
  let r16 := control_byte r15.2
  let r17 := control_byte r16.2
  ([r15.1, r16.1, r17.1], r17.2)

/-- The 18 ancillary bytes (adrenc.c:169-220): 15 zero bytes, the three control
bytes, and the control flags OR-ed into their top bits (`ad` is `uint8_t`,
`scfcrc` an `int`, so the last one is reduced to a byte). -/
def ancillary_bytes (s : _adrenc_t) : List Nat × _adrenc_t :=
  let c := control_data s
  (List.replicate 15 0 ++
    [c.1.getD 0 0 ||| (0 <<< 7),
     c.1.getD 1 0 ||| (0 <<< 7),
     (c.1.getD 2 0 ||| (s.scfcrc <<< 7)) % 256], c.2)

/-- The 36 codewords (adrenc.c:223-227). -/
def codewords (ad : List Nat) : List Nat :=
  (List.range 18).flatMap fun i =>
    [_74code.getD (ad.getD i 0 &&& 0x0F) 0, _74code.getD (ad.getD i 0 >>> 4) 0]

/-- The byte of the ancillary region that bit `i` goes to (adrenc.c:234-235). -/
def ancillary_byte (i : Nat) : Nat :=
  let b := i >>> 3
  if b ≥ 30 then b + 4 else b

/-- One pass of the interleaving loop (adrenc.c:233-237), `data` being the
whole frame: `data[0x21C + b] |= ((cw[i % 36] >> (i / 36)) & 1) << (7 - (i & 7))`. -/
def interleave_step (cw : List Nat) (data : List Nat) (i : Nat) : List Nat :=
  data.set (0x21C + ancillary_byte i)
    (data.getD (0x21C + ancillary_byte i) 0 |||
      (((cw.getD (i % 36) 0 >>> (i / 36)) &&& 1) <<< (7 - (i &&& 7))))

/-- The interleaving loop `for(i = 0; i < 252; i++)` (adrenc.c:231-238). -/
def interleave (cw : List Nat) (data : List Nat) : List Nat :=
  (List.range 252).foldl (interleave_step cw) data

/-- The function `_insert_adr_ancillary` (adrenc.c:162-239): the state and the
frame after the call. -/
def _insert_adr_ancillary (s : _adrenc_t) (data : List Nat) : _adrenc_t × List Nat :=
  let a := ancillary_bytes s
  (a.2, interleave (codewords a.1) data)

/-- The state that `main` sets up (adrenc.c:327-334, 343-360): everything zero
but the station identity, the mode character and the integrity-check switch. -/
def initial_state (station_id : List Nat) (dc4_mode scfcrc : Nat) : _adrenc_t :=
  { station_id := station_id, scfcrc := scfcrc,
    mp2buffer := (List.replicate 577 0, List.replicate 577 0), frame := 0,
    cptr := 0, cmsg := List.replicate 40 0, cindex := 0, dc4_mode := dc4_mode }

/-- The station identity that `-s TEST` leaves in `station_id`: the codes of
`T`, `E`, `S`, `T` and 28 zero bytes. -/
def station_TEST : List Nat := [0x54, 0x45, 0x53, 0x54] ++ List.replicate 28 0

/-! ### Notions used to state the properties -/

/-- Hamming distance of two bytes: the number of bit positions where they differ. -/
def hamming (a b : Nat) : Nat := ((List.range 8).filter fun k => (a ^^^ b).testBit k).length

/-- The bit that pass `i` of the interleaving loop ORs in, and where. -/
def writes_bit (cw : List Nat) (p k i : Nat) : Bool :=
  decide (0x21C + ancillary_byte i = p) && decide (k = 7 - (i &&& 7)) &&
    (cw.getD (i % 36) 0).testBit (i / 36)

/-- The ancillary byte `ad[k]` in the words of the specification: zero for
`k < 15`, then the three control bytes of this call, the flag in `ad[17]`. -/
def spec_ad (s : _adrenc_t) (k : Nat) : Nat :=
  if k < 15 then 0
  else if k = 15 then (control_data s).1.getD 0 0
  else if k = 16 then (control_data s).1.getD 1 0
  else ((control_data s).1.getD 2 0 ||| (s.scfcrc <<< 7)) % 256

/-- The codeword `cw[j]` in the words of the specification: the low nibble of
`ad[j / 2]` for even `j`, its high nibble for odd `j`. -/
def spec_cw (s : _adrenc_t) (j : Nat) : Nat :=
  if j % 2 = 0 then _74code.getD (spec_ad s (j / 2) &&& 0x0F) 0
  else _74code.getD (spec_ad s (j / 2) >>> 4) 0

/-- The sum, modulo 256, of the low seven bits of the bytes of `l`. -/
def sum7 (l : List Nat) : Nat := (l.map fun b => b &&& 0x7F).sum % 256

/-- A message body followed by its checksum field and ETX: the two hexadecimal
digits of `sum7 body`, low nibble first, then 0x03. -/
def framed (body : List Nat) : List Nat :=
  body ++ [hexdigit (sum7 body &&& 0x0F), hexdigit (sum7 body >>> 4), 0x03]

/-- The three complete control messages, written out: number 0 has type byte
0x11, number 1 type byte 0x14 (the template ends early at a zero mode
character), number 2 type byte 0x16 and the station identity string.
`id_bytes` are the bytes that `%s` meets from `station_id` on. -/
def control_message (id_bytes : List Nat) (dc4_mode : Nat) : Nat → List Nat
  | 0 => framed [0x02, 0x11, 0x04]
  | 1 => framed (cstr [0x02, 0x14, 0x45, 0x31, 0x43, 0x32, 0x30, 0x41, dc4_mode % 256, 0x32, 0x04])
  | _ => framed ([0x02, 0x16] ++ cstr id_bytes ++ [0x23, 0x04])

/-- The control bytes of `n` successive passes of the control data loop, and
the state after them. -/
def control_bytes : Nat → _adrenc_t → List Nat × _adrenc_t
  | 0, s => ([], s)
  | n + 1, s =>
    let r := control_byte s
    let t := control_bytes n r.2
    (r.1 :: t.1, t.2)

/-- The state before call number `f` of `_insert_adr_ancillary`, the calls
starting in `s0` and call `f` working on the frame `frames f`. -/
def state_at (s0 : _adrenc_t) (frames : Nat → List Nat) : Nat → _adrenc_t
  | 0 => s0
  | f + 1 => (_insert_adr_ancillary (state_at s0 frames f) (frames f)).1

/-- The `n`-th control byte fetched: the one for ancillary byte `15 + n mod 3`
in call `n / 3`, before the flags are OR-ed in. -/
def nth_control_byte (s0 : _adrenc_t) (frames : Nat → List Nat) (n : Nat) : Nat :=
  (control_data (state_at s0 frames (n / 3))).1.getD (n % 3) 0

/-- The cursor is at a terminator and message `k` is the next to be generated,
in a state with the given configuration. -/
def Ready (station_id : List Nat) (scfcrc dc4_mode k : Nat) (s : _adrenc_t) : Prop :=
  s.station_id = station_id ∧ s.scfcrc = scfcrc ∧ s.dc4_mode = dc4_mode ∧ s.cindex = k ∧
    s.cmsg.getD s.cptr 0 = 0

/-- One round of the rotation: message 0, then message 1, then message 2. -/
def message_cycle (id_bytes : List Nat) (dc4_mode : Nat) : List Nat :=
  control_message id_bytes dc4_mode 0 ++ control_message id_bytes dc4_mode 1 ++
    control_message id_bytes dc4_mode 2

/-- The message that the code generates in state `s`: the string found in
`cmsg` after `next_message`. -/
def generated_message (s : _adrenc_t) : List Nat := cstr (next_message s).cmsg

/-- The checksum field of a complete message (the two bytes before its last
byte) holds the hexadecimal digits of `S`, low nibble first. -/
def checksum_field_is (m : List Nat) (S : Nat) : Prop :=
  m.getD (m.length - 3) 0 = hexdigit (S &&& 0x0F) ∧ m.getD (m.length - 2) 0 = hexdigit (S >>> 4)

instance (m : List Nat) (S : Nat) : Decidable (checksum_field_is m S) := by
  unfold checksum_field_is
  infer_instance

/-! ### EBU Latin character set (adrenc.c:58-155) -/

/-- The table `_charset` (adrenc.c:59-76): for each of the 256 codes the UTF-8
bytes of its string literal, without the terminating zero; 8 codes a line. -/
def _charset : List (List Nat) := [
  [], [], [], [], [], [], [], [],
  [], [], [], [], [], [], [], [],
  [], [], [], [], [], [], [], [],
  [], [], [], [], [], [], [], [],
  [0x20], [0x21], [0x22], [0x23], [0xC2, 0xA4], [0x25], [0x26], [0x27],
  [0x28], [0x29], [0x2A], [0x2B], [0x2C], [0x2D], [0x2E], [0x2F],
  [0x30], [0x31], [0x32], [0x33], [0x34], [0x35], [0x36], [0x37],
  [0x38], [0x39], [0x3A], [0x3B], [0x3C], [0x3D], [0x3E], [0x3F],
  [0x40], [0x41], [0x42], [0x43], [0x44], [0x45], [0x46], [0x47],
  [0x48], [0x49], [0x4A], [0x4B], [0x4C], [0x4D], [0x4E], [0x4F],
  [0x50], [0x51], [0x52], [0x53], [0x54], [0x55], [0x56], [0x57],
  [0x58], [0x59], [0x5A], [0x5B], [0x5C], [0x5D], [0xE2, 0x80, 0x95], [0x5F],
  [0xE2, 0x80, 0x96], [0x61], [0x62], [0x63], [0x64], [0x65], [0x66], [0x67],
  [0x68], [0x69], [0x6A], [0x6B], [0x6C], [0x6D], [0x6E], [0x6F],
  [0x70], [0x71], [0x72], [0x73], [0x74], [0x75], [0x76], [0x77],
  [0x78], [0x79], [0x7A], [0x7B], [0x7C], [0x7D], [0xC2, 0xAF], [],
  [0xC3, 0xA1], [0xC3, 0xA0], [0xC3, 0xA9], [0xC3, 0xA8], [0xC3, 0xAD], [0xC3, 0xAC], [0xC3, 0xB3], [0xC3, 0xB2],
  [0xC3, 0xBA], [0xC3, 0xB9], [0xC3, 0x91], [0xC3, 0x87], [0xC5, 0x9E], [0xCE, 0xB2], [0xC2, 0xA1], [0xC4, 0xB2],
  [0xC3, 0xA2], [0xC3, 0xA4], [0xC3, 0xAA], [0xC3, 0xAB], [0xC3, 0xAE], [0xC3, 0xAF], [0xC3, 0xB4], [0xC3, 0xB6],
  [0xC3, 0xBB], [0xC3, 0xBC], [0xC3, 0xB1], [0xC3, 0xA7], [0xC5, 0x9F], [0xC7, 0xA7], [0xC4, 0xB1], [0xC4, 0xB3],
  [0xC2, 0xAA], [0xCE, 0xB1], [0xC2, 0xA9], [0xE2, 0x80, 0xB0], [0xC7, 0xA6], [0xC4, 0x9B], [0xC5, 0x88], [0xC5, 0x91],
  [0xCF, 0x80], [0xE2, 0x82, 0xAC], [0xC2, 0xA3], [0x24], [0xE2, 0x86, 0x90], [0xE2, 0x86, 0x91], [0xE2, 0x86, 0x92], [0xE2, 0x86, 0x93],
  [0xC2, 0xBA], [0xC2, 0xB9], [0xC2, 0xB2], [0xC2, 0xB3], [0xC2, 0xB1], [0xC4, 0xB0], [0xC5, 0x84], [0xC5, 0xB1],
  [0xC2, 0xB5], [0xC2, 0xBF], [0xC3, 0xB7], [0xC2, 0xB0], [0xC2, 0xBC], [0xC2, 0xBD], [0xC2, 0xBE], [0xC2, 0xA7],
  [0xC3, 0x81], [0xC3, 0x80], [0xC3, 0x89], [0xC3, 0x88], [0xC3, 0x8D], [0xC3, 0x8C], [0xC3, 0x93], [0xC3, 0x92],
  [0xC3, 0x9A], [0xC3, 0x99], [0xC5, 0x98], [0xC4, 0x8C], [0xC5, 0xA0], [0xC5, 0xBD], [0xC3, 0x90], [0xC4, 0xBF],
  [0xC3, 0x82], [0xC3, 0x84], [0xC3, 0x8A], [0xC3, 0x8B], [0xC3, 0x8E], [0xC3, 0x8F], [0xC3, 0x94], [0xC3, 0x96],
  [0xC3, 0x9B], [0xC3, 0x9C], [0xC5, 0x99], [0xC4, 0x8D], [0xC5, 0xA1], [0xC5, 0xBE], [0xC4, 0x91], [0xC5, 0x80],
  [0xC3, 0x83], [0xC3, 0x85], [0xC3, 0x86], [0xC5, 0x92], [0xC5, 0xB7], [0xC3, 0x9D], [0xC3, 0x95], [0xC3, 0x98],
  [0xC3, 0x9E], [0xC5, 0x8A], [0xC5, 0x94], [0xC4, 0x86], [0xC5, 0x9A], [0xC5, 0xB9], [0xC5, 0xA6], [0xC3, 0xB0],
  [0xC3, 0xA3], [0xC3, 0xA5], [0xC3, 0xA6], [0xC5, 0x93], [0xC5, 0xB5], [0xC3, 0xBD], [0xC3, 0xB5], [0xC3, 0xB8],
  [0xC3, 0xBE], [0xC5, 0x8B], [0xC5, 0x95], [0xC4, 0x87], [0xC5, 0x9B], [0xC5, 0xBA], [0xC5, 0xA7], []]

/-- The loop `while(b--)` of `_utf8next` (adrenc.c:104-114).  `c` is the offset
of the byte read last, `next` the offset that `*next` holds.  The first
component is `none` when the loop returns U+FFFD, else the code so far. -/
def utf8_tail (str : List Nat) : Nat → Nat → Nat → Nat → Option Nat × Nat
  | 0, _, u, next => (some u, next)
  | b + 1, c, u, next =>
    if str.getD (c + 1) 0 &&& 0xC0 ≠ 0x80 then (none, next)
    else utf8_tail str b (c + 1) ((u <<< 6) ||| (str.getD (c + 1) 0 &&& 0x3F)) (next + 1)

/-- The end of `_utf8next` (adrenc.c:107, 116-119) given the outcome of the
loop: U+FFFD after a bad continuation byte or for an overlong form (`u < m`),
else `u`; with the final offset of `*next`. -/
def utf8_finish (r : Option Nat × Nat) (m : Nat) : Nat × Nat :=
  match r.1 with
  | none => (0xFFFD, r.2)
  | some u => if u < m then (0xFFFD, r.2) else (u, r.2)

/-- The function `_utf8next` (adrenc.c:78-120) on the bytes from `str` on: the
code point returned and the offset of `*next` from `str`.  The code `u` is a
`uint32_t`; it holds at most 3 + 18 bits, so it is not reduced. -/
def _utf8next (str : List Nat) : Nat × Nat :=
  if str.getD 0 0 < 0x80 then (str.getD 0 0, 1)
  else if str.getD 0 0 &&& 0xE0 = 0xC0 then
    utf8_finish (utf8_tail str 1 0 (str.getD 0 0 &&& 0x1F) 1) 0x00080
  else if str.getD 0 0 &&& 0xF0 = 0xE0 then
    utf8_finish (utf8_tail str 2 0 (str.getD 0 0 &&& 0x0F) 1) 0x00800
  else if str.getD 0 0 &&& 0xF8 = 0xF0 then
    utf8_finish (utf8_tail str 3 0 (str.getD 0 0 &&& 0x07) 1) 0x10000
  else (0xFFFD, 1)

/-- The table lookup of `_encode_ebu_string` (adrenc.c:132-135): the first `j`
with `c == _utf8next(_charset[j], NULL)`, or 256. -/
def charset_lookup (c : Nat) : Nat := _charset.findIdx fun e => c == (_utf8next e).1

/-- The code written for code point `c` (adrenc.c:138): `j == 256 ? ' ' : j`. -/
def ebu_code (c : Nat) : Nat := if charset_lookup c = 256 then 0x20 else charset_lookup c

/-- The first loop of `_encode_ebu_string` (adrenc.c:127-139) with `n = len - i`
passes to go: the buffer and `i` after it. -/
def encode_chars : Nat → Nat → List Nat → List Nat → List Nat × Nat
  | 0, i, _, dst => (dst, i)
  | n + 1, i, src, dst =>
    if src.getD 0 0 ≠ 0 then
      encode_chars n (i + 1) (src.drop (_utf8next src).2) (dst.set i (ebu_code (_utf8next src).1))
    else (dst, i)

/-- The second loop of `_encode_ebu_string` (adrenc.c:141-144) with
`n = len - i` passes to go. -/
def zero_fill : Nat → Nat → List Nat → List Nat
  | 0, _, dst => dst
  | n + 1, i, dst => zero_fill n (i + 1) (dst.set i 0)

/-- The function `_encode_ebu_string` (adrenc.c:122-145): the buffer `dst`
after the call. -/
def _encode_ebu_string (dst : List Nat) (src : List Nat) (len : Nat) : List Nat :=
  let r := encode_chars len 0 src dst
  zero_fill (len - r.2) r.2 r.1

/-- The loop of `_decode_ebu_string` (adrenc.c:151-154) with `n = len - i`
passes to go; `dst` is the string built so far, to which `strcat` appends.
The C condition reads `*src` before it tests `i < len`; the value read when
`i = len` does not reach the result, so the count is tested first here. -/
def decode_chars : Nat → List Nat → List Nat → List Nat
  | 0, _, dst => dst
  | n + 1, src, dst =>
    if src.getD 0 0 ≠ 0 then
      decode_chars n (src.drop 1)
        (dst ++ (if (_charset.getD (src.getD 0 0) []).getD 0 0 ≠ 0
          then _charset.getD (src.getD 0 0) [] else [0x3F]))
    else dst

/-- The function `_decode_ebu_string` (adrenc.c:147-155): the string in `dst`
after the call. -/
def _decode_ebu_string (src : List Nat) (len : Nat) : List Nat := decode_chars len src []

/-- The code points of a string: `_utf8next` applied again and again until the
terminating zero.  Every step takes at least one byte, so `fuel` equal to the
length of `src` is enough. -/
def code_points_aux : Nat → List Nat → List Nat
  | 0, _ => []
  | fuel + 1, src =>
    if src.getD 0 0 = 0 then []
    else (_utf8next src).1 :: code_points_aux fuel (src.drop (_utf8next src).2)

/-- The code points of the string `src`. -/
def code_points (src : List Nat) : List Nat := code_points_aux src.length src

/-! ### Frame scheduling (adrenc.c:241-276) -/

/-- What the twolame library does in one call of `_encode_adr_frame`:
`twolame_encode_buffer_interleaved` and `twolame_encode_flush` give their
return value `r` and the content they leave in the buffer `fn`;
`twolame_set_DAB_scf_crc` maps the content of `fl` and `r` to the new content
of `fl`.  The library is external, so these are free. -/
structure Twolame where
  encode_buffer_interleaved : Int × List Nat
  encode_flush : Int × List Nat
  set_DAB_scf_crc : List Nat → Int → List Nat

/-- The buffer `s->mp2buffer[i]`. -/
def slot (b : List Nat × List Nat) (i : Nat) : List Nat := if i = 0 then b.1 else b.2

/-- The buffer pair with `s->mp2buffer[i]` replaced. -/
def set_slot (b : List Nat × List Nat) (i : Nat) (v : List Nat) : List Nat × List Nat :=
  if i = 0 then (v, b.2) else (b.1, v)

/-- The encoder call of adrenc.c:248-255: with PCM data the block encoder, at
the end of the stream (`pcm` NULL) the flush. -/
def encoder_call (tw : Twolame) (pcm : Bool) : Int × List Nat :=
  if pcm then tw.encode_buffer_interleaved else tw.encode_flush

/-- The function `_encode_adr_frame` (adrenc.c:241-276): the returned pointer
as the index of the buffer it points to (`none` for NULL), and the state
after the call. -/
def _encode_adr_frame (tw : Twolame) (pcm : Bool) (s : _adrenc_t) : Option Nat × _adrenc_t :=
  let fn := (s.frame + 1) &&& 1
  let fl := (s.frame + 0) &&& 1
  let enc := encoder_call tw pcm
  let s1 : _adrenc_t := { s with mp2buffer := set_slot s.mp2buffer fn enc.2 }
  if enc.1 > 0 then
    let a := _insert_adr_ancillary s1 (slot s1.mp2buffer fn)
    let s2 : _adrenc_t := { a.1 with mp2buffer := set_slot a.1.mp2buffer fn a.2 }
    if s2.scfcrc = 0 then (some fn, { s2 with frame := s2.frame + 1 })
    else if s2.frame > 0 then
      (some fl,
        { s2 with
          mp2buffer := set_slot s2.mp2buffer fl (tw.set_DAB_scf_crc (slot s2.mp2buffer fl) enc.1),
          frame := s2.frame + 1 })
    else (none, { s2 with frame := s2.frame + 1 })
  else (none, s1)

/-- The frame built in a call in which the encoder returns a frame: what the
encoder left in `fn`, with the ancillary data inserted. -/
def built_frame (tw : Twolame) (pcm : Bool) (s : _adrenc_t) : List Nat :=
  (_insert_adr_ancillary s (encoder_call tw pcm).2).2

/-- The state before call number `k` of `_encode_adr_frame`, the calls
starting in `s0` and call `k` meeting the library behaviour `calls k`. -/
def state_before (s0 : _adrenc_t) (calls : Nat → Twolame × Bool) : Nat → _adrenc_t
  | 0 => s0
  | k + 1 => (_encode_adr_frame (calls k).1 (calls k).2 (state_before s0 calls k)).2

/-- The pointer that call number `k` returns. -/
def returned (s0 : _adrenc_t) (calls : Nat → Twolame × Bool) (k : Nat) : Option Nat :=
  (_encode_adr_frame (calls k).1 (calls k).2 (state_before s0 calls k)).1

/-- The frame that `main` writes after call `k` (adrenc.c:425-426): the first
ADR_FRAME_LEN bytes at the returned pointer, if it is not NULL. -/
def emitted (s0 : _adrenc_t) (calls : Nat → Twolame × Bool) (k : Nat) : Option (List Nat) :=
  (returned s0 calls k).map fun i =>
    (slot (state_before s0 calls (k + 1)).mp2buffer i).take ADR_FRAME_LEN

/-- A library behaviour to run the scheduler on: the block encoder returns 576
bytes (all zero), the flush returns nothing, and the integrity field is left
as it is. -/
def sample_twolame : Twolame :=
  ⟨(576, List.replicate 577 0), (0, List.replicate 577 0), fun buf _ => buf⟩

/-- The number of calls among the first `n` that satisfy `p`. -/
def count_calls (p : Nat → Bool) (n : Nat) : Nat := ((List.range n).filter p).length

/-! ### Notions for the form of the control messages -/

/-- The text that the format string of message `k` produces (adrenc.c:182,
192, 196), before `snprintf` cuts it to 38 characters and before the string
ends at a zero byte in it.  `id_bytes` are the bytes that `%s` meets from
`station_id` on. -/
def template_text (id_bytes : List Nat) (dc4_mode : Nat) : Nat → List Nat
  | 0 => [0x02, 0x11, 0x04]
  | 1 => [0x02, 0x14, 0x45, 0x31, 0x43, 0x32, 0x30, 0x41, dc4_mode % 256, 0x32, 0x04]
  | _ => [0x02, 0x16] ++ cstr id_bytes ++ [0x23, 0x04]

/-- An upper-case hexadecimal digit in ASCII: `0` to `9` or `A` to `F`. -/
def is_upper_hex (d : Nat) : Prop := (0x30 ≤ d ∧ d ≤ 0x39) ∨ (0x41 ≤ d ∧ d ≤ 0x46)

/-- The value of an upper-case hexadecimal digit. -/
def hex_value (d : Nat) : Nat := if d ≤ 0x39 then d - 0x30 else d - 0x37

/-! ### Notions for UTF-8 (RFC 3629) -/

/-- A continuation byte, of the form 10xxxxxx. -/
def is_continuation (b : Nat) : Prop := 0x80 ≤ b ∧ b ≤ 0xBF

instance (b : Nat) : Decidable (is_continuation b) := by
  unfold is_continuation
  infer_instance

/-- The shortest-form UTF-8 encoding of the code point `U`: one byte below
0x80, two below 0x800, three below 0x10000, four from there on. -/
def utf8_encode (U : Nat) : List Nat :=
  if U < 0x80 then [U]
  else if U < 0x800 then [0xC0 + U / 64, 0x80 + U % 64]
  else if U < 0x10000 then [0xE0 + U / 4096, 0x80 + U / 64 % 64, 0x80 + U % 64]
  else [0xF0 + U / 262144, 0x80 + U / 4096 % 64, 0x80 + U / 64 % 64, 0x80 + U % 64]

/-- A string that starts with a malformed sequence, `c0` to `c3` being its
first four bytes (zero from the terminator on): a first byte that is a
continuation byte or 0xF8 to 0xFF; a lead byte of a 2-, 3- or 4-byte form
without that many continuation bytes after it; or an overlong form, whose
value is below 0x80, 0x800 or 0x10000. -/
def malformed_start (c0 c1 c2 c3 : Nat) : Prop :=
  (0x80 ≤ c0 ∧ c0 ≤ 0xBF) ∨ (0xF8 ≤ c0 ∧ c0 ≤ 0xFF) ∨
  (0xC0 ≤ c0 ∧ c0 ≤ 0xDF ∧ ¬ is_continuation c1) ∨
  (0xE0 ≤ c0 ∧ c0 ≤ 0xEF ∧ (¬ is_continuation c1 ∨ ¬ is_continuation c2)) ∨
  (0xF0 ≤ c0 ∧ c0 ≤ 0xF7 ∧
    (¬ is_continuation c1 ∨ ¬ is_continuation c2 ∨ ¬ is_continuation c3)) ∨
  (0xC0 ≤ c0 ∧ c0 ≤ 0xDF ∧ is_continuation c1 ∧
    (c0 - 0xC0) * 64 + (c1 - 0x80) < 0x80) ∨
  (0xE0 ≤ c0 ∧ c0 ≤ 0xEF ∧ is_continuation c1 ∧ is_continuation c2 ∧
    (c0 - 0xE0) * 4096 + (c1 - 0x80) * 64 + (c2 - 0x80) < 0x800) ∨
  (0xF0 ≤ c0 ∧ c0 ≤ 0xF7 ∧ is_continuation c1 ∧ is_continuation c2 ∧ is_continuation c3 ∧
    (c0 - 0xF0) * 262144 + (c1 - 0x80) * 4096 + (c2 - 0x80) * 64 + (c3 - 0x80) < 0x10000)

/-- The offset of `src` from the start of the string after the first loop of
`_encode_ebu_string` (adrenc.c:127-139), `n = len - i` passes to go: each pass
moves `src` to where `_utf8next` leaves `*next`. -/
def encode_src_offset : Nat → List Nat → Nat
  | 0, _ => 0
  | n + 1, src =>
    if src.getD 0 0 ≠ 0 then
      (_utf8next src).2 + encode_src_offset n (src.drop (_utf8next src).2)
    else 0

/-! ## Theorems -/

/-! ### Interleaving (adrenc.c:229-238) -/

theorem interleave_step_length (cw data : List Nat) (i : Nat) :
    (interleave_step cw data i).length = data.length := by
  simp [interleave_step]

theorem foldl_interleave_length (cw : List Nat) (l : List Nat) (data : List Nat) :
    (l.foldl (interleave_step cw) data).length = data.length := by
  induction l generalizing data with
  | nil => rfl
  | cons i l ih => simp [List.foldl_cons, ih, interleave_step_length]

theorem interleave_step_getD (cw data : List Nat) (i p : Nat) (hp : p < data.length) :
    (interleave_step cw data i).getD p 0 =
      if 0x21C + ancillary_byte i = p then
        data.getD p 0 ||| (((cw.getD (i % 36) 0 >>> (i / 36)) &&& 1) <<< (7 - (i &&& 7)))
      else data.getD p 0 := by
  unfold interleave_step
  rw [List.getD_eq_getElem?_getD, List.getElem?_set]
  by_cases h : 0x21C + ancillary_byte i = p
  · subst h
    simp [hp]
  · simp [h]

theorem testBit_bit_shiftLeft (x sh k : Nat) :
    ((x &&& 1) <<< sh).testBit k = (decide (k = sh) && x.testBit 0) := by
  rw [Nat.testBit_shiftLeft, Nat.testBit_and]
  by_cases h : k = sh
  · subst h; simp
  · by_cases h2 : k ≥ sh
    · have : k - sh ≠ 0 := by omega
      have h1 : Nat.testBit 1 (k - sh) = false := by
        rw [Nat.testBit_to_div_mod]
        have : 1 / 2 ^ (k - sh) = 0 := Nat.div_eq_of_lt (Nat.one_lt_two_pow this)
        simp [this]
      simp [h, h1]
    · simp [h, h2]

theorem foldl_interleave_testBit (cw : List Nat) (l : List Nat) (data : List Nat) (p k : Nat)
    (hp : p < data.length) :
    ((l.foldl (interleave_step cw) data).getD p 0).testBit k =
      ((data.getD p 0).testBit k || l.any (writes_bit cw p k)) := by
  induction l generalizing data with
  | nil => simp
  | cons i l ih =>
    rw [List.foldl_cons, ih _ (by rw [interleave_step_length]; exact hp),
      interleave_step_getD _ _ _ _ hp, List.any_cons, ← Bool.or_assoc]
    congr 1
    by_cases h : 0x21C + ancillary_byte i = p
    · rw [if_pos h, Nat.testBit_lor, testBit_bit_shiftLeft]
      simp [writes_bit, h, Nat.testBit_shiftRight]
    · simp [writes_bit, h]

theorem ancillary_bytes_getD (s : _adrenc_t) (k : Nat) (hk : k < 18) :
    (ancillary_bytes s).1.getD k 0 = spec_ad s k := by
  interval_cases k <;> simp [ancillary_bytes, spec_ad]

theorem flatMap_pair_getD (f g : Nat → Nat) (n j : Nat) (hj : j < 2 * n) :
    ((List.range n).flatMap fun i => [f i, g i]).getD j 0 =
      if j % 2 = 0 then f (j / 2) else g (j / 2) := by
  induction n with
  | zero => omega
  | succ n ih =>
    have hl : ((List.range n).flatMap fun i => [f i, g i]).length = 2 * n := by
      clear ih hj
      induction n with
      | zero => rfl
      | succ m ihm => rw [List.range_succ, List.flatMap_append, List.length_append, ihm]; simp; omega
    rw [List.range_succ, List.flatMap_append, List.getD_eq_getElem?_getD]
    by_cases h : j < 2 * n
    · rw [List.getElem?_append_left (by omega), ← List.getD_eq_getElem?_getD, ih h]
    · rw [List.getElem?_append_right (by omega), hl]
      have h2 : j = 2 * n ∨ j = 2 * n + 1 := by omega
      rcases h2 with h2 | h2
      · have e1 : j - 2 * n = 0 := by omega
        have e2 : j % 2 = 0 := by omega
        have e3 : j / 2 = n := by omega
        simp [e1, e2, e3]
      · have e1 : j - 2 * n = 1 := by omega
        have e2 : ¬ (j % 2 = 0) := by omega
        have e3 : j / 2 = n := by omega
        simp [e1, e2, e3]

theorem codewords_getD (s : _adrenc_t) (j : Nat) (hj : j < 36) :
    (codewords (ancillary_bytes s).1).getD j 0 = spec_cw s j := by
  unfold codewords
  rw [flatMap_pair_getD _ _ _ _ (by omega)]
  unfold spec_cw
  rw [ancillary_bytes_getD s (j / 2) (by omega)]

theorem ancillary_byte_eq (i : Nat) :
    ancillary_byte i = if i / 8 < 30 then i / 8 else i / 8 + 4 := by
  unfold ancillary_byte
  simp only [Nat.shiftRight_eq_div_pow]
  split <;> split <;> omega

theorem and_seven (i : Nat) : i &&& 7 = i % 8 := Nat.and_pow_two_sub_one_eq_mod i 3

theorem any_writes_bit (cw : List Nat) (i : Nat) (hi : i < 252) :
    (List.range 252).any (writes_bit cw (0x21C + ancillary_byte i) (7 - i % 8)) =
      (cw.getD (i % 36) 0).testBit (i / 36) := by
  rw [Bool.eq_iff_iff, List.any_eq_true]
  constructor
  · rintro ⟨j, hj, hw⟩
    rw [List.mem_range] at hj
    simp only [writes_bit, Bool.and_eq_true, decide_eq_true_eq, and_seven, ancillary_byte_eq] at hw
    obtain ⟨⟨h1, h2⟩, h3⟩ := hw
    have : j = i := by
      split at h1 <;> split at h1 <;> omega
    rw [← this]; exact h3
  · intro h
    refine ⟨i, List.mem_range.mpr hi, ?_⟩
    simpa [writes_bit, and_seven] using h

theorem bit_eq_of_testBit (a b i j : Nat) (h : a.testBit i = b.testBit j) :
    (a >>> i) &&& 1 = (b >>> j) &&& 1 := by
  rw [Nat.testBit_to_div_mod, Nat.testBit_to_div_mod] at h
  simp only [Nat.shiftRight_eq_div_pow, Nat.and_one_is_mod]
  have h1 := Nat.mod_two_eq_zero_or_one (a / 2 ^ i)
  have h2 := Nat.mod_two_eq_zero_or_one (b / 2 ^ j)
  rcases h1 with h1 | h1 <;> rcases h2 with h2 | h2 <;> simp_all

theorem insert_adr_ancillary_snd (s : _adrenc_t) (data : List Nat) :
    (_insert_adr_ancillary s data).2 =
      (List.range 252).foldl (interleave_step (codewords (ancillary_bytes s).1)) data := by
  simp only [_insert_adr_ancillary, interleave]

/-- C1. For every state and every frame of at least 576 bytes whose ancillary
region (bytes 0x21C to 0x21C+35) is zero, after `_insert_adr_ancillary` bit
`7 - i mod 8` of byte `0x21C + b` (with `b = i/8` below 30 and `i/8 + 4` from
30 on) equals bit `i / 36` of codeword `i mod 36`, for every `i < 252`; the
codewords are `_74code` of the low and the high nibble of the 18 ancillary
bytes: 15 zeros and the three control bytes of this call, the integrity flag
OR-ed into the last. -/
theorem insert_adr_ancillary_bits (s : _adrenc_t) (data : List Nat)
    (hlen : 576 ≤ data.length) (hzero : ∀ j, j < 36 → data.getD (0x21C + j) 0 = 0)
    (i : Nat) (hi : i < 252) :
    ((_insert_adr_ancillary s data).2.getD
        (0x21C + (if i / 8 < 30 then i / 8 else i / 8 + 4)) 0 >>> (7 - i % 8)) &&& 1 =
      (spec_cw s (i % 36) >>> (i / 36)) &&& 1 := by
  apply bit_eq_of_testBit
  rw [← ancillary_byte_eq]
  have hb : ancillary_byte i < 36 := by
    rw [ancillary_byte_eq]; split <;> omega
  have hp : 0x21C + ancillary_byte i < data.length := by omega
  rw [insert_adr_ancillary_snd, foldl_interleave_testBit _ _ _ _ _ hp, hzero _ hb,
    any_writes_bit _ _ hi, codewords_getD s _ (Nat.mod_lt _ (by decide))]
  simp

set_option maxRecDepth 100000 in
theorem insert_adr_ancillary_bits_witness :
    (576 ≤ (List.replicate 576 0).length ∧
      (∀ j, j < 36 → (List.replicate 576 0).getD (0x21C + j) 0 = 0) ∧ 100 < 252) ∧
    ((_insert_adr_ancillary (initial_state station_TEST 0x53 1) (List.replicate 576 0)).2.getD
        (0x21C + (if 100 / 8 < 30 then 100 / 8 else 100 / 8 + 4)) 0 >>> (7 - 100 % 8)) &&& 1 =
      (spec_cw (initial_state station_TEST 0x53 1) (100 % 36) >>> (100 / 36)) &&& 1 :=
  ⟨⟨by decide, by decide, by decide⟩,
    insert_adr_ancillary_bits _ _ (by decide) (by decide) 100 (by decide)⟩

/-! ### The block code (adrenc.c:157-160) -/

set_option maxRecDepth 100000 in
/-- C2. The table `_74code` holds the sixteen canonical codewords in order, a
codeword with one of its seven bits flipped is within Hamming distance 1 of
its own codeword only, and two distinct codewords differ in at least 3 bits. -/
theorem block_code_corrects_single_error :
    _74code = [0x00,0x07,0x19,0x1E,0x2A,0x2D,0x33,0x34,0x4B,0x4C,0x52,0x55,0x61,0x66,0x78,0x7F] ∧
    (∀ v : Fin 16, ∀ k : Fin 7, ∀ w : Fin 16,
      hamming (_74code.getD w.val 0) (_74code.getD v.val 0 ^^^ (1 <<< k.val)) ≤ 1 ↔ w = v) ∧
    (∀ v w : Fin 16, v = w ∨ 3 ≤ hamming (_74code.getD v.val 0) (_74code.getD w.val 0)) := by
  refine ⟨rfl, ?_, ?_⟩
  · decide
  · decide

/-! ### Frame effect of the insertion -/

theorem foldl_interleave_getD_other (cw : List Nat) (l : List Nat) (data : List Nat) (p : Nat)
    (h : ∀ i ∈ l, 0x21C + ancillary_byte i ≠ p) :
    (l.foldl (interleave_step cw) data).getD p 0 = data.getD p 0 := by
  induction l generalizing data with
  | nil => rfl
  | cons i l ih =>
    rw [List.foldl_cons, ih _ (fun j hj => h j (List.mem_cons_of_mem _ hj))]
    unfold interleave_step
    rw [List.getD_eq_getElem?_getD, List.getElem?_set, if_neg (h i (List.mem_cons_self _ _)),
      ← List.getD_eq_getElem?_getD]

theorem ancillary_byte_range (i : Nat) (hi : i < 252) :
    ancillary_byte i < 30 ∨ ancillary_byte i = 34 ∨ ancillary_byte i = 35 := by
  rw [ancillary_byte_eq]; split <;> omega

/-- C3. On a frame of 576 bytes `_insert_adr_ancillary` keeps the length,
writes only at bytes 0x21C to 0x21C+29 and 0x21C+34, 0x21C+35 (all below 576),
leaves every other byte as it was (the gap 0x21C+30 to 0x21C+33 and all bytes
before 0x21C among them), and leaves the low 4 bits of byte 0x21C+35. -/
theorem insert_adr_ancillary_frame_effect (s : _adrenc_t) (data : List Nat)
    (hlen : data.length = ADR_FRAME_LEN) :
    (_insert_adr_ancillary s data).2.length = ADR_FRAME_LEN ∧
    (∀ i, i < 252 →
      (0x21C ≤ 0x21C + ancillary_byte i ∧ 0x21C + ancillary_byte i ≤ 0x21C + 29 ∨
        0x21C + 34 ≤ 0x21C + ancillary_byte i ∧ 0x21C + ancillary_byte i ≤ 0x21C + 35) ∧
      0x21C + ancillary_byte i < ADR_FRAME_LEN) ∧
    (∀ p, ¬ (0x21C ≤ p ∧ p ≤ 0x21C + 29) → ¬ (0x21C + 34 ≤ p ∧ p ≤ 0x21C + 35) →
      (_insert_adr_ancillary s data).2.getD p 0 = data.getD p 0) ∧
    (∀ p, 0x21C + 30 ≤ p ∧ p ≤ 0x21C + 33 ∨ p < 0x21C →
      (_insert_adr_ancillary s data).2.getD p 0 = data.getD p 0) ∧
    (_insert_adr_ancillary s data).2.getD (0x21C + 35) 0 % 16 = data.getD (0x21C + 35) 0 % 16 := by
  have hother : ∀ p, ¬ (0x21C ≤ p ∧ p ≤ 0x21C + 29) → ¬ (0x21C + 34 ≤ p ∧ p ≤ 0x21C + 35) →
      (_insert_adr_ancillary s data).2.getD p 0 = data.getD p 0 := by
    intro p h1 h2
    rw [insert_adr_ancillary_snd]
    apply foldl_interleave_getD_other
    intro i hi
    have := ancillary_byte_range i (List.mem_range.mp hi)
    omega
  refine ⟨?_, ?_, hother, ?_, ?_⟩
  · rw [insert_adr_ancillary_snd, foldl_interleave_length, hlen]
  · intro i hi
    have := ancillary_byte_range i hi
    unfold ADR_FRAME_LEN
    omega
  · intro p hp
    apply hother <;> omega
  · apply Nat.eq_of_testBit_eq
    intro k
    rw [show (16 : Nat) = 2 ^ 4 from rfl, Nat.testBit_mod_two_pow, Nat.testBit_mod_two_pow]
    by_cases hk : k < 4
    · rw [insert_adr_ancillary_snd,
        foldl_interleave_testBit _ _ _ _ _ (by rw [hlen]; decide)]
      have hany : (List.range 252).any
          (writes_bit (codewords (ancillary_bytes s).1) (0x21C + 35) k) = false := by
        rw [Bool.eq_false_iff]
        intro hc
        rw [List.any_eq_true] at hc
        obtain ⟨j, hj, hw⟩ := hc
        rw [List.mem_range] at hj
        simp only [writes_bit, Bool.and_eq_true, decide_eq_true_eq, and_seven,
          ancillary_byte_eq] at hw
        obtain ⟨⟨h1, h2⟩, -⟩ := hw
        split at h1 <;> omega
      rw [hany, Bool.or_false]
    · simp [hk]

theorem insert_adr_ancillary_frame_effect_witness :
    (List.replicate 576 0).length = ADR_FRAME_LEN ∧
    (_insert_adr_ancillary (initial_state station_TEST 0x53 1) (List.replicate 576 0)).2.length
      = ADR_FRAME_LEN :=
  ⟨List.length_replicate 576 0,
    (insert_adr_ancillary_frame_effect _ _ (List.length_replicate 576 0)).1⟩

/-! ### Control messages (adrenc.c:171-215) -/

theorem cstr_no_zero (l : List Nat) : ∀ b ∈ cstr l, b ≠ 0 := by
  intro b hb
  have := List.mem_takeWhile_imp hb
  simpa using this

theorem cstr_length_le (l : List Nat) : (cstr l).length ≤ l.length :=
  (List.takeWhile_sublist _).length_le

theorem cstr_append_zero (m rest : List Nat) (hm : ∀ b ∈ m, b ≠ 0) :
    cstr (m ++ 0 :: rest) = m := by
  induction m with
  | nil => simp [cstr]
  | cons b m ih =>
    have hb : b ≠ 0 := hm b (List.mem_cons_self _ _)
    have := ih (fun x hx => hm x (List.mem_cons_of_mem _ hx))
    simp only [cstr] at this ⊢
    simp [List.takeWhile_cons, hb, this]

theorem cstr_split (l r : List Nat) :
    ∃ rest, l ++ 0 :: r = cstr l ++ 0 :: rest := by
  induction l with
  | nil => exact ⟨r, by simp [cstr]⟩
  | cons b l ih =>
    by_cases hb : b = 0
    · subst hb
      exact ⟨l ++ 0 :: r, by simp [cstr]⟩
    · obtain ⟨rest, h⟩ := ih
      refine ⟨rest, ?_⟩
      simp only [cstr] at h ⊢
      simp [List.takeWhile_cons, hb, h]

theorem checksum_loop_spec (m rest : List Nat) (hm : ∀ b ∈ m, b ≠ 0) (p c : Nat)
    (hc : c < 256) :
    checksum_loop (m ++ 0 :: rest) p c =
      (p + m.length, (c + (m.map fun b => b &&& 0x7F).sum) % 256) := by
  induction m generalizing p c with
  | nil =>
    simp only [List.nil_append, checksum_loop, List.map_nil, List.sum_nil, List.length_nil,
      if_true, Nat.add_zero, Nat.mod_eq_of_lt hc]
  | cons b m ih =>
    have hb : b ≠ 0 := hm b (List.mem_cons_self _ _)
    rw [List.cons_append, checksum_loop, if_neg hb,
      ih (fun x hx => hm x (List.mem_cons_of_mem _ hx)) _ _ (Nat.mod_lt _ (by decide))]
    simp only [List.map_cons, List.sum_cons, List.length_cons, Prod.mk.injEq]
    constructor
    · omega
    · omega

theorem snprintf_fits (buf : List Nat) (off size : Nat) (out : List Nat)
    (h : out.length < size) :
    snprintf buf off size out = buf.take off ++ out ++ 0 :: buf.drop (off + out.length + 1) := by
  unfold snprintf
  have h0 : size ≠ 0 := by omega
  have ht : out.take (size - 1) = out := List.take_of_length_le (by omega)
  rw [if_neg h0, ht]
  simp [Nat.add_assoc]

theorem snprintf_length (buf : List Nat) (off size : Nat) (out : List Nat)
    (h : out.length < size) (hb : off + out.length + 1 ≤ buf.length) :
    (snprintf buf off size out).length = buf.length := by
  rw [snprintf_fits _ _ _ _ h]
  simp
  omega

/-- The checksum step of `next_message` on a buffer that holds the template
`out` and its terminator: the string of the template, framed. -/
theorem checksum_appended (out rest : List Nat) :
    (∃ rest2, snprintf (out ++ 0 :: rest) (checksum_loop (out ++ 0 :: rest) 0 0).1 4
        [hexdigit ((checksum_loop (out ++ 0 :: rest) 0 0).2 &&& 0x0F),
         hexdigit ((checksum_loop (out ++ 0 :: rest) 0 0).2 >>> 4), 0x03] =
      framed (cstr out) ++ 0 :: rest2) ∧
    ((cstr out).length + 4 ≤ (out ++ 0 :: rest).length →
      (snprintf (out ++ 0 :: rest) (checksum_loop (out ++ 0 :: rest) 0 0).1 4
        [hexdigit ((checksum_loop (out ++ 0 :: rest) 0 0).2 &&& 0x0F),
         hexdigit ((checksum_loop (out ++ 0 :: rest) 0 0).2 >>> 4), 0x03]).length =
      (out ++ 0 :: rest).length) := by
  obtain ⟨r1, h1⟩ := cstr_split out rest
  rw [h1, checksum_loop_spec _ _ (cstr_no_zero out) 0 0 (by decide)]
  constructor
  · rw [snprintf_fits _ _ _ _ (by simp)]
    refine ⟨((cstr out ++ 0 :: r1).drop (0 + (cstr out).length +
      [hexdigit (sum7 (cstr out) &&& 0x0F), hexdigit (sum7 (cstr out) >>> 4), 0x03].length + 1)), ?_⟩
    simp [framed, sum7]
  · intro h
    apply snprintf_length _ _ _ _ (by simp)
    simp only [List.length_append, List.length_cons, List.length_nil] at h ⊢
    omega

theorem cstr_of_no_zero (l : List Nat) (h : ∀ b ∈ l, b ≠ 0) : cstr l = l := by
  induction l with
  | nil => rfl
  | cons b l ih =>
    have hb : b ≠ 0 := h b (List.mem_cons_self _ _)
    have := ih (fun x hx => h x (List.mem_cons_of_mem _ hx))
    simp only [cstr] at this ⊢
    simp [List.takeWhile_cons, hb, this]

/-- Template and checksum steps together, for a template of at most 38
characters, which `snprintf` does not cut; on a buffer of 40 bytes and a
template of at most 36 characters the buffer keeps its 40 bytes. -/
theorem message_built (buf out : List Nat) (hout : out.length ≤ 38) :
    (∃ rest, snprintf (snprintf buf 0 39 out) (checksum_loop (snprintf buf 0 39 out) 0 0).1 4
        [hexdigit ((checksum_loop (snprintf buf 0 39 out) 0 0).2 &&& 0x0F),
         hexdigit ((checksum_loop (snprintf buf 0 39 out) 0 0).2 >>> 4), 0x03] =
      framed (cstr out) ++ 0 :: rest) ∧
    (buf.length = 40 → out.length ≤ 36 →
      (snprintf (snprintf buf 0 39 out) (checksum_loop (snprintf buf 0 39 out) 0 0).1 4
        [hexdigit ((checksum_loop (snprintf buf 0 39 out) 0 0).2 &&& 0x0F),
         hexdigit ((checksum_loop (snprintf buf 0 39 out) 0 0).2 >>> 4), 0x03]).length = 40) := by
  have h1 : snprintf buf 0 39 out = out ++ 0 :: buf.drop (out.length + 1) := by
    rw [snprintf_fits _ _ _ _ (by omega)]; simp
  rw [h1]
  obtain ⟨hex, hlen⟩ := checksum_appended out (buf.drop (out.length + 1))
  refine ⟨hex, ?_⟩
  intro hbuf hout36
  have hl : (out ++ 0 :: buf.drop (out.length + 1)).length = 40 := by
    simp; omega
  rw [hlen, hl]
  have := cstr_length_le out
  rw [hl]; omega

theorem cstr_append_zero_right (l r : List Nat) : cstr (l ++ 0 :: r) = cstr l := by
  obtain ⟨rest, h⟩ := cstr_split l r
  rw [h]
  exact cstr_append_zero _ _ (cstr_no_zero l)

/-- With a zero byte in the array, `%s` does not reach `scfcrc`. -/
theorem station_string_of_mem (sid : List Nat) (scfcrc : Nat) (h : 0 ∈ sid) :
    cstr (station_id_overread sid scfcrc) = cstr sid := by
  obtain ⟨a, b, hab⟩ := List.append_of_mem h
  unfold station_id_overread
  rw [hab, List.append_assoc, List.cons_append, cstr_append_zero_right, cstr_append_zero_right]

/-- With `scfcrc` 0 or 1, `%s` reads at most one byte more than the array
holds, and no more than the array when `scfcrc` is 0. -/
theorem station_string_length (sid : List Nat) (scfcrc : Nat) (h : scfcrc ≤ 1) :
    (cstr (station_id_overread sid scfcrc)).length ≤ sid.length + scfcrc := by
  have h01 : scfcrc = 0 ∨ scfcrc = 1 := by omega
  rcases h01 with h0 | h1
  · subst h0
    have e : station_id_overread sid 0 = sid ++ 0 :: [0, 0, 0] := rfl
    rw [e, cstr_append_zero_right]
    exact cstr_length_le sid
  · subst h1
    have e : station_id_overread sid 1 = (sid ++ [1]) ++ 0 :: [0, 0] := by
      simp [station_id_overread]
    rw [e, cstr_append_zero_right]
    have := cstr_length_le (sid ++ [1])
    simpa using this

theorem framed_no_zero (body : List Nat) (h : ∀ b ∈ body, b ≠ 0) : ∀ b ∈ framed body, b ≠ 0 := by
  intro b hb
  simp only [framed, List.mem_append, List.mem_cons, List.mem_singleton, List.not_mem_nil,
    or_false] at hb
  rcases hb with hb | hb | hb | hb
  · exact h b hb
  · subst hb; unfold hexdigit; split <;> omega
  · subst hb; unfold hexdigit; split <;> omega
  · subst hb; decide

theorem control_message_no_zero (sid : List Nat) (mode k : Nat) :
    ∀ b ∈ control_message sid mode k, b ≠ 0 := by
  match k with
  | 0 => exact framed_no_zero _ (by decide)
  | 1 => exact framed_no_zero _ (cstr_no_zero _)
  | n + 2 =>
    apply framed_no_zero
    intro b hb
    simp only [List.mem_append, List.mem_cons, List.mem_singleton, List.not_mem_nil,
      or_false] at hb
    rcases hb with (hb | hb) | hb | hb
    · rcases hb with hb | hb <;> omega
    · exact cstr_no_zero _ b hb
    · omega
    · omega

/-- The message generated in a state whose station string has at most 34
bytes, so that the template is not cut: the buffer then starts with the
complete message `s.cindex` and its terminator.  A buffer of 40 bytes keeps
its length when the station string has at most 32 bytes. -/
theorem next_message_spec (s : _adrenc_t) (hk : s.cindex < 3)
    (hfit : (cstr (station_id_overread s.station_id s.scfcrc)).length ≤ 34) :
    ∃ rest, next_message s =
        { s with cindex := (s.cindex + 1) % 3, cptr := 0,
                 cmsg := control_message (station_id_overread s.station_id s.scfcrc)
                   s.dc4_mode s.cindex ++ 0 :: rest } ∧
      (s.cmsg.length = 40 → (cstr (station_id_overread s.station_id s.scfcrc)).length ≤ 32 →
        (control_message (station_id_overread s.station_id s.scfcrc) s.dc4_mode s.cindex
          ++ 0 :: rest).length = 40) := by
  obtain ⟨sid, scf, mp2, fr, cp, cm, ci, mode⟩ := s
  simp only at hk hfit ⊢
  have h3 : ci = 0 ∨ ci = 1 ∨ ci = 2 := by omega
  rcases h3 with h | h | h <;> subst h
  · obtain ⟨⟨rest, h1⟩, h2⟩ := message_built cm [0x02, 0x11, 0x04] (by decide)
    refine ⟨rest, ?_, ?_⟩
    · simp only [next_message, message_template]
      rw [h1]
      rfl
    · intro hlen _
      rw [h1] at h2; exact h2 hlen (by decide)
  · obtain ⟨⟨rest, h1⟩, h2⟩ := message_built cm
      [0x02, 0x14, 0x45, 0x31, 0x43, 0x32, 0x30, 0x41, mode % 256, 0x32, 0x04] (by simp)
    refine ⟨rest, ?_, ?_⟩
    · simp only [next_message, message_template, List.cons_append, List.nil_append]
      rw [h1]
      rfl
    · intro hlen _
      rw [h1] at h2; exact h2 hlen (by simp)
  · have hnz : ∀ b ∈ [0x02, 0x16] ++ cstr (station_id_overread sid scf) ++ [0x23] ++ [0x04],
        b ≠ 0 := by
      intro b hb
      simp only [List.mem_append, List.mem_cons, List.mem_singleton, List.not_mem_nil,
        or_false] at hb
      rcases hb with ((hb | hb) | hb) | hb
      · rcases hb with hb | hb <;> omega
      · exact cstr_no_zero _ b hb
      · omega
      · omega
    obtain ⟨⟨rest, h1⟩, h2⟩ := message_built cm
      ([0x02, 0x16] ++ cstr (station_id_overread sid scf) ++ [0x23] ++ [0x04]) (by simp; omega)
    rw [cstr_of_no_zero _ hnz] at h1
    refine ⟨rest, ?_, ?_⟩
    · simp only [next_message, message_template]
      rw [h1]
      simp [control_message]
    · intro hlen h32
      rw [h1] at h2
      simpa [control_message] using h2 hlen (by simp; omega)

theorem control_bytes_length (n : Nat) (s : _adrenc_t) : (control_bytes n s).1.length = n := by
  induction n generalizing s with
  | zero => rfl
  | succ n ih => simp [control_bytes, ih]

theorem control_bytes_add (a b : Nat) (s : _adrenc_t) :
    control_bytes (a + b) s =
      ((control_bytes a s).1 ++ (control_bytes b (control_bytes a s).2).1,
        (control_bytes b (control_bytes a s).2).2) := by
  induction a generalizing s with
  | zero => simp [control_bytes]
  | succ a ih =>
    rw [Nat.succ_add]
    simp only [control_bytes, ih, List.cons_append]

/-- Inside a message the cursor walks to the terminator, one byte per pass. -/
theorem control_bytes_in_message (m rest : List Nat) (hm : ∀ b ∈ m, b ≠ 0) (d : Nat)
    (s : _adrenc_t) (hs : s.cmsg = m ++ 0 :: rest) (h : s.cptr + d = m.length) :
    control_bytes d s = (m.drop s.cptr, { s with cptr := m.length }) := by
  induction d generalizing s with
  | zero =>
    have h0 : s.cptr = m.length := by omega
    obtain ⟨sid, scf, mp2, fr, cp, cm, ci, mode⟩ := s
    simp only at h0
    subst h0
    simp [control_bytes]
  | succ d ih =>
    have hlt : s.cptr < m.length := by omega
    have hget : s.cmsg.getD s.cptr 0 = m[s.cptr] := by
      rw [hs, List.getD_eq_getElem?_getD, List.getElem?_append_left hlt,
        List.getElem?_eq_getElem hlt]
      rfl
    have hne : m[s.cptr] ≠ 0 := hm _ (List.getElem_mem _)
    have hstep : control_byte s = (m[s.cptr], { s with cptr := s.cptr + 1 }) := by
      unfold control_byte
      simp only [hget, if_neg hne]
    simp only [control_bytes, hstep]
    rw [ih { s with cptr := s.cptr + 1 } hs (by simp; omega)]
    simp only [Prod.mk.injEq, and_true]
    exact (List.drop_eq_getElem_cons hlt).symm

theorem control_byte_at_terminator (s : _adrenc_t) (h : s.cmsg.getD s.cptr 0 = 0)
    (h2 : (next_message s).cmsg.getD (next_message s).cptr 0 ≠ 0) :
    control_byte s = control_byte (next_message s) := by
  unfold control_byte
  simp only [h, if_true, if_neg h2]

/-- From a terminator the next passes transmit message `k` in full and end at
its terminator, with message `(k + 1) mod 3` next. -/
theorem control_bytes_message (sid0 : List Nat) (scf mode k : Nat) (s : _adrenc_t)
    (hfit : (cstr (station_id_overread sid0 scf)).length ≤ 34) (hk : k < 3)
    (hr : Ready sid0 scf mode k s) :
    (control_bytes (control_message (station_id_overread sid0 scf) mode k).length s).1 =
        control_message (station_id_overread sid0 scf) mode k ∧
      Ready sid0 scf mode ((k + 1) % 3)
        (control_bytes (control_message (station_id_overread sid0 scf) mode k).length s).2 := by
  obtain ⟨h1, h1s, h2, h3, h5⟩ := hr
  obtain ⟨rest, hn, -⟩ := next_message_spec s (by omega) (by rw [h1, h1s]; exact hfit)
  rw [h1, h1s, h2, h3] at hn
  generalize station_id_overread sid0 scf = sid at hn ⊢
  have hnz := control_message_no_zero sid mode k
  have hpos : 0 < (control_message sid mode k).length := by
    match k with
    | 0 => simp [control_message, framed]
    | 1 => simp [control_message, framed]
    | n + 2 => simp [control_message, framed]
  have hfirst : (next_message s).cmsg.getD (next_message s).cptr 0 ≠ 0 := by
    rw [hn]
    simp only [List.getD_eq_getElem?_getD, List.getElem?_append_left hpos,
      List.getElem?_eq_getElem hpos, Option.getD_some]
    exact hnz _ (List.getElem_mem _)
  obtain ⟨d, hd⟩ : ∃ d, (control_message sid mode k).length = d + 1 := ⟨_, (Nat.succ_pred_eq_of_pos hpos).symm⟩
  have hrun := control_bytes_in_message _ rest hnz (d + 1) (next_message s)
    (by rw [hn]) (by rw [hn]; simp [hd])
  have heq : control_bytes (d + 1) s = control_bytes (d + 1) (next_message s) := by
    simp only [control_bytes, control_byte_at_terminator s h5 hfirst]
  rw [hd, heq, hrun, hn]
  simp only [List.drop_zero, true_and]
  refine ⟨rfl, rfl, rfl, rfl, ?_⟩
  show (control_message sid mode k ++ 0 :: rest).getD (control_message sid mode k).length 0 = 0
  rw [List.getD_eq_getElem?_getD, List.getElem?_append_right (le_refl _)]
  simp

theorem control_bytes_round (sid : List Nat) (scf mode : Nat) (s : _adrenc_t)
    (hfit : (cstr (station_id_overread sid scf)).length ≤ 34) (hr : Ready sid scf mode 0 s) :
    (control_bytes (message_cycle (station_id_overread sid scf) mode).length s).1 =
        message_cycle (station_id_overread sid scf) mode ∧
      Ready sid scf mode 0
        (control_bytes (message_cycle (station_id_overread sid scf) mode).length s).2 := by
  obtain ⟨e0, r1⟩ := control_bytes_message sid scf mode 0 s hfit (by decide) hr
  obtain ⟨e1, r2⟩ := control_bytes_message sid scf mode 1 _ hfit (by decide) r1
  obtain ⟨e2, r0⟩ := control_bytes_message sid scf mode 2 _ hfit (by decide) r2
  unfold message_cycle
  rw [List.length_append, List.length_append, control_bytes_add, control_bytes_add]
  simp only [e0, e1, e2]
  exact ⟨trivial, r0⟩

theorem control_bytes_prefix (n m : Nat) (s : _adrenc_t) (h : n < m) :
    (control_bytes m s).1.getD n 0 = (control_bytes (n + 1) s).1.getD n 0 := by
  have hm : m = (n + 1) + (m - (n + 1)) := by omega
  rw [hm, control_bytes_add]
  simp only [List.getD_eq_getElem?_getD]
  rw [List.getElem?_append_left (by rw [control_bytes_length]; omega)]

theorem message_cycle_pos (sid : List Nat) (mode : Nat) : 0 < (message_cycle sid mode).length := by
  simp [message_cycle, control_message, framed]

/-- From the start of a round, pass `n` fetches byte `n` of the repeated round. -/
theorem control_bytes_periodic (sid : List Nat) (scf mode : Nat)
    (hfit : (cstr (station_id_overread sid scf)).length ≤ 34) (n : Nat) :
    ∀ s, Ready sid scf mode 0 s →
      (control_bytes (n + 1) s).1.getD n 0 =
        (message_cycle (station_id_overread sid scf) mode).getD
          (n % (message_cycle (station_id_overread sid scf) mode).length) 0 := by
  induction n using Nat.strong_induction_on with
  | _ n ih =>
    intro s hr
    obtain ⟨e, r⟩ := control_bytes_round sid scf mode s hfit hr
    have hpos := message_cycle_pos (station_id_overread sid scf) mode
    by_cases hn : n < (message_cycle (station_id_overread sid scf) mode).length
    · rw [Nat.mod_eq_of_lt hn, ← control_bytes_prefix n _ s hn, e]
    · have hsplit : n + 1 = (message_cycle (station_id_overread sid scf) mode).length +
          ((n - (message_cycle (station_id_overread sid scf) mode).length) + 1) := by omega
      rw [hsplit, control_bytes_add, e]
      simp only [List.getD_eq_getElem?_getD]
      rw [List.getElem?_append_right (by omega), ← List.getD_eq_getElem?_getD,
        ih (n - (message_cycle (station_id_overread sid scf) mode).length) (by omega) _ r,
        Nat.mod_eq_sub_mod
          (show n ≥ (message_cycle (station_id_overread sid scf) mode).length by omega),
        List.getD_eq_getElem?_getD]

theorem insert_adr_ancillary_fst (s : _adrenc_t) (data : List Nat) :
    (_insert_adr_ancillary s data).1 = (control_bytes 3 s).2 := rfl

theorem control_data_fst (s : _adrenc_t) : (control_data s).1 = (control_bytes 3 s).1 := rfl

theorem state_at_eq (s0 : _adrenc_t) (frames : Nat → List Nat) (f : Nat) :
    state_at s0 frames f = (control_bytes (3 * f) s0).2 := by
  induction f with
  | zero => rfl
  | succ f ih =>
    rw [state_at, insert_adr_ancillary_fst, ih, show 3 * (f + 1) = 3 * f + 3 by omega,
      control_bytes_add]

theorem nth_control_byte_eq (s0 : _adrenc_t) (frames : Nat → List Nat) (n : Nat) :
    nth_control_byte s0 frames n = (control_bytes (n + 1) s0).1.getD n 0 := by
  unfold nth_control_byte
  rw [control_data_fst, state_at_eq, ← control_bytes_prefix n (3 * (n / 3) + 3) s0 (by omega),
    control_bytes_add]
  simp only [List.getD_eq_getElem?_getD]
  rw [List.getElem?_append_right (by rw [control_bytes_length]; omega), control_bytes_length]
  congr 2
  omega

theorem next_message_cindex (s : _adrenc_t) (h : s.cindex < 3) : (next_message s).cindex < 3 := by
  obtain ⟨sid, scf, mp2, fr, cp, cm, ci, mode⟩ := s
  simp only at h
  have h3 : ci = 0 ∨ ci = 1 ∨ ci = 2 := by omega
  rcases h3 with h | h | h <;> subst h <;> simp [next_message, message_template]

theorem control_bytes_cindex (n : Nat) (s : _adrenc_t) (h : s.cindex < 3) :
    (control_bytes n s).2.cindex < 3 := by
  induction n generalizing s with
  | zero => exact h
  | succ n ih =>
    simp only [control_bytes]
    apply ih
    unfold control_byte
    split
    · exact next_message_cindex s h
    · exact h

theorem initial_state_ready (sid : List Nat) (mode scfcrc : Nat) :
    Ready sid scfcrc mode 0 (initial_state sid mode scfcrc) := by
  exact ⟨rfl, rfl, rfl, rfl, rfl⟩

theorem generated_message_eq (s : _adrenc_t) (hk : s.cindex < 3)
    (hfit : (cstr (station_id_overread s.station_id s.scfcrc)).length ≤ 34) :
    generated_message s =
      control_message (station_id_overread s.station_id s.scfcrc) s.dc4_mode s.cindex := by
  obtain ⟨rest, hn, -⟩ := next_message_spec s hk hfit
  unfold generated_message
  rw [hn]
  exact cstr_append_zero _ _ (control_message_no_zero _ _ _)

/-- C4. From the initial state, for every 32-byte station identity, mode
character, setting 0 or 1 of the integrity-check switch and `n`, the `n`-th
control byte fetched (three per call of `_insert_adr_ancillary`) is byte `n`
of the endless repetition of message 0 (type 0x11), message 1 (type 0x14),
message 2 (type 0x16), each sent in full; the rotation index is 0, 1 or 2
after every call; and the three messages are the ones that the code generates
at rotation index 0, 1 and 2.  The station string of message 2 is what `%s`
reads from `station_id` on: it runs on into `scfcrc` when the 32 bytes of the
array are all non-zero.  Message 2 then has 40 bytes with `scfcrc` 1, and its
terminator is at offset 40 of `cmsg`, a byte that the buffer list of the model
takes in. -/
theorem control_bytes_cycle (station_id : List Nat) (dc4_mode scfcrc : Nat)
    (hsid : station_id.length = 32) (hscf : scfcrc ≤ 1) (frames : Nat → List Nat) (n : Nat) :
    nth_control_byte (initial_state station_id dc4_mode scfcrc) frames n =
        (message_cycle (station_id_overread station_id scfcrc) dc4_mode).getD
          (n % (message_cycle (station_id_overread station_id scfcrc) dc4_mode).length) 0 ∧
      (state_at (initial_state station_id dc4_mode scfcrc) frames (n + 1)).cindex < 3 ∧
      (control_message (station_id_overread station_id scfcrc) dc4_mode 0).getD 1 0 = 0x11 ∧
      (control_message (station_id_overread station_id scfcrc) dc4_mode 1).getD 1 0 = 0x14 ∧
      (control_message (station_id_overread station_id scfcrc) dc4_mode 2).getD 1 0 = 0x16 ∧
      ∀ k, k < 3 →
        generated_message { initial_state station_id dc4_mode scfcrc with cindex := k } =
          control_message (station_id_overread station_id scfcrc) dc4_mode k := by
  have hfit : (cstr (station_id_overread station_id scfcrc)).length ≤ 34 := by
    have := station_string_length station_id scfcrc hscf
    omega
  refine ⟨?_, ?_, ?_, ?_, ?_, ?_⟩
  · rw [nth_control_byte_eq]
    exact control_bytes_periodic station_id scfcrc dc4_mode hfit n _
      (initial_state_ready station_id dc4_mode scfcrc)
  · rw [state_at_eq]
    exact control_bytes_cindex _ _ (Nat.zero_lt_succ 2)
  · simp [control_message, framed]
  · simp [control_message, framed, cstr, List.takeWhile_cons]
  · simp [control_message, framed]
  · intro k hk
    exact generated_message_eq { initial_state station_id dc4_mode scfcrc with cindex := k } hk hfit

set_option maxRecDepth 1000000 in
theorem control_bytes_cycle_witness :
    ((List.replicate 32 0x41).length = 32 ∧ 1 ≤ 1) ∧
    nth_control_byte (initial_state (List.replicate 32 0x41) 0x53 1)
        (fun _ => List.replicate 576 0) 54 =
      (message_cycle (station_id_overread (List.replicate 32 0x41) 1) 0x53).getD
        (54 % (message_cycle (station_id_overread (List.replicate 32 0x41) 1) 0x53).length) 0 ∧
    (message_cycle (station_id_overread (List.replicate 32 0x41) 1) 0x53).getD
        (54 % (message_cycle (station_id_overread (List.replicate 32 0x41) 1) 0x53).length) 0
      = 0x01 :=
  ⟨⟨by decide, by decide⟩,
    (control_bytes_cycle (List.replicate 32 0x41) 0x53 1 (by decide) (by decide) _ 54).1,
    by decide⟩

set_option maxRecDepth 1000000 in
/-- The code run on an identity of 32 characters `A` with the integrity check
on: control byte 54, fetched in call 18, is the byte 0x01 read from `scfcrc`,
and the byte after it the `#` of the template. -/
theorem control_byte_from_scfcrc :
    nth_control_byte (initial_state (List.replicate 32 0x41) 0x53 1)
      (fun _ => List.replicate 576 0) 54 = 0x01 ∧
    nth_control_byte (initial_state (List.replicate 32 0x41) 0x53 1)
      (fun _ => List.replicate 576 0) 55 = 0x23 ∧
    nth_control_byte (initial_state (List.replicate 32 0x41) 0x53 0)
      (fun _ => List.replicate 576 0) 54 = 0x23 := by
  decide

/-! ### The checksum field (adrenc.c:201-208) -/

theorem snprintf_cut (buf : List Nat) (out : List Nat) :
    ∃ rest, snprintf buf 0 39 out = out.take 38 ++ 0 :: rest := by
  refine ⟨buf.drop (0 + ((out.take (39 - 1)).length + 1)), ?_⟩
  simp [snprintf]

theorem framed_string (out rest : List Nat) :
    cstr (snprintf (out ++ 0 :: rest) (checksum_loop (out ++ 0 :: rest) 0 0).1 4
        [hexdigit ((checksum_loop (out ++ 0 :: rest) 0 0).2 &&& 0x0F),
         hexdigit ((checksum_loop (out ++ 0 :: rest) 0 0).2 >>> 4), 0x03]) =
      framed (cstr out) := by
  obtain ⟨rest2, h⟩ := (checksum_appended out rest).1
  rw [h]
  exact cstr_append_zero _ _ (framed_no_zero _ (cstr_no_zero out))

/-- Whatever the buffer and the station identity hold, the generated message
is the string of the template, cut to 38 characters, with checksum and ETX. -/
theorem generated_message_framed (s : _adrenc_t) (hk : s.cindex < 3) :
    generated_message s =
      framed (cstr ((template_text (station_id_overread s.station_id s.scfcrc)
        s.dc4_mode s.cindex).take 38)) := by
  obtain ⟨sid, scf, mp2, fr, cp, cm, ci, mode⟩ := s
  simp only at hk ⊢
  have h3 : ci = 0 ∨ ci = 1 ∨ ci = 2 := by omega
  rcases h3 with h | h | h <;> subst h
  · obtain ⟨rest, h1⟩ := snprintf_cut cm [0x02, 0x11, 0x04]
    simp only [generated_message, next_message, message_template]
    rw [h1]
    exact framed_string _ _
  · obtain ⟨rest, h1⟩ := snprintf_cut cm
      [0x02, 0x14, 0x45, 0x31, 0x43, 0x32, 0x30, 0x41, mode % 256, 0x32, 0x04]
    simp only [generated_message, next_message, message_template, List.cons_append,
      List.nil_append]
    rw [h1]
    exact framed_string _ _
  · obtain ⟨rest, h1⟩ := snprintf_cut cm
      ([0x02, 0x16] ++ cstr (station_id_overread sid scf) ++ [0x23, 0x04])
    simp only [generated_message, next_message, message_template, List.append_assoc,
      List.cons_append, List.nil_append] at h1 ⊢
    rw [h1]
    exact framed_string _ _

theorem template_body_head (id_bytes : List Nat) (mode k : Nat) :
    ∃ t, cstr ((template_text id_bytes mode k).take 38) = 0x02 :: t := by
  match k with
  | 0 => exact ⟨_, by simp [template_text, cstr, List.takeWhile_cons]; rfl⟩
  | 1 => exact ⟨_, by simp [template_text, cstr, List.takeWhile_cons]; rfl⟩
  | n + 2 => exact ⟨_, by simp [template_text, cstr, List.takeWhile_cons]; rfl⟩

theorem framed_checksum (body : List Nat) (h : body ≠ []) :
    (framed body).getD 0 0 = body.getD 0 0 ∧
    (framed body).getD ((framed body).length - 1) 0 = 0x03 ∧
    checksum_field_is (framed body) (sum7 ((framed body).take ((framed body).length - 3))) := by
  have hl : (framed body).length = body.length + 3 := by simp [framed]
  have ht : (framed body).take ((framed body).length - 3) = body := by
    rw [hl]; simp [framed]
  have hpos : 0 < body.length := List.length_pos.mpr h
  unfold checksum_field_is
  rw [ht, hl]
  simp only [framed, List.getD_eq_getElem?_getD]
  refine ⟨?_, ?_, ?_, ?_⟩
  · rw [List.getElem?_append_left hpos]
  · rw [List.getElem?_append_right (by omega)]
    simp [show body.length + 3 - 1 - body.length = 2 by omega]
  · rw [List.getElem?_append_right (by omega)]
    simp
  · rw [List.getElem?_append_right (by omega)]
    simp [show body.length + 3 - 2 - body.length = 1 by omega]

/-- C5 as stated fails: in message 0 the checksum digits are `71` (the sum
0x17 of 0x02, 0x11, 0x04), not the digits `51` of the sum without the STX. -/
theorem checksum_without_stx_counterexample :
    generated_message (initial_state (List.replicate 32 0) 0x53 0) =
        [0x02, 0x11, 0x04, 0x37, 0x31, 0x03] ∧
      ¬ checksum_field_is (generated_message (initial_state (List.replicate 32 0) 0x53 0))
        (sum7 (((generated_message (initial_state (List.replicate 32 0) 0x53 0)).take
          ((generated_message (initial_state (List.replicate 32 0) 0x53 0)).length - 3)).drop 1)) := by
  decide

/-- C5, amended. Each of the three generated messages starts with STX, ends
with ETX, and its two bytes before the ETX are the hexadecimal digits, low
nibble first, of the sum modulo 256 of `b & 0x7F` over all bytes before the
checksum field, the leading STX included. -/
theorem checksum_field_with_stx (s : _adrenc_t) (hk : s.cindex < 3) :
    (generated_message s).getD 0 0 = 0x02 ∧
    (generated_message s).getD ((generated_message s).length - 1) 0 = 0x03 ∧
    checksum_field_is (generated_message s)
      (sum7 ((generated_message s).take ((generated_message s).length - 3))) := by
  rw [generated_message_framed s hk]
  obtain ⟨t, ht⟩ := template_body_head (station_id_overread s.station_id s.scfcrc)
    s.dc4_mode s.cindex
  obtain ⟨h1, h2, h3⟩ := framed_checksum _
    (show cstr ((template_text (station_id_overread s.station_id s.scfcrc)
      s.dc4_mode s.cindex).take 38) ≠ [] by rw [ht]; simp)
  refine ⟨?_, h2, h3⟩
  rw [h1, ht]
  rfl

theorem checksum_field_with_stx_witness :
    (initial_state station_TEST 0x53 0).cindex < 3 ∧
    checksum_field_is
      (generated_message (initial_state station_TEST 0x53 0))
      (sum7 ((generated_message (initial_state station_TEST 0x53 0)).take
        ((generated_message (initial_state station_TEST 0x53 0)).length - 3))) :=
  ⟨by decide, (checksum_field_with_stx _ (by decide)).2.2⟩

/-! ### EBU strings (adrenc.c:78-155) -/

theorem utf8_tail_next_ge (str : List Nat) (b c u next : Nat) :
    next ≤ (utf8_tail str b c u next).2 := by
  induction b generalizing c u next with
  | zero => simp [utf8_tail]
  | succ b ih =>
    unfold utf8_tail
    split
    · exact le_refl _
    · exact le_trans (Nat.le_succ _) (ih _ _ _)

theorem utf8_finish_snd (r : Option Nat × Nat) (m : Nat) : (utf8_finish r m).2 = r.2 := by
  unfold utf8_finish
  split
  · rfl
  · split <;> rfl

theorem utf8_finish_fst_ne_zero (r : Option Nat × Nat) (m : Nat) (hm : 0 < m) :
    (utf8_finish r m).1 ≠ 0 := by
  unfold utf8_finish
  split
  · simp
  · split
    · simp
    · simp only; omega

/-- Every call of `_utf8next` moves `*next` at least one byte on. -/
theorem utf8next_advances (str : List Nat) : 1 ≤ (_utf8next str).2 := by
  unfold _utf8next
  split
  · exact le_refl _
  · split
    · rw [utf8_finish_snd]; exact utf8_tail_next_ge _ _ _ _ _
    · split
      · rw [utf8_finish_snd]; exact utf8_tail_next_ge _ _ _ _ _
      · split
        · rw [utf8_finish_snd]; exact utf8_tail_next_ge _ _ _ _ _
        · exact le_refl _

/-- On a non-empty string `_utf8next` never returns the code point 0. -/
theorem utf8next_ne_zero (str : List Nat) (h : str.getD 0 0 ≠ 0) : (_utf8next str).1 ≠ 0 := by
  unfold _utf8next
  split
  · exact h
  · split
    · exact utf8_finish_fst_ne_zero _ _ (by decide)
    · split
      · exact utf8_finish_fst_ne_zero _ _ (by decide)
      · split
        · exact utf8_finish_fst_ne_zero _ _ (by decide)
        · decide

theorem code_points_aux_succ (fuel : Nat) (src : List Nat) :
    code_points_aux (fuel + 1) src =
      if src.getD 0 0 = 0 then []
      else (_utf8next src).1 :: code_points_aux fuel (src.drop (_utf8next src).2) := rfl

theorem code_points_aux_fuel (fuel : Nat) (src : List Nat) (h : src.length ≤ fuel) :
    code_points_aux (fuel + 1) src = code_points_aux fuel src := by
  induction fuel generalizing src with
  | zero =>
    have : src = [] := List.length_eq_zero.mp (by omega)
    subst this
    simp [code_points_aux]
  | succ fuel ih =>
    rw [code_points_aux_succ (fuel + 1) src, code_points_aux_succ fuel src]
    split
    · rfl
    · have := utf8next_advances src
      rw [ih _ (by rw [List.length_drop]; omega)]

theorem code_points_aux_eq (fuel : Nat) (src : List Nat) (h : src.length ≤ fuel) :
    code_points_aux fuel src = code_points src := by
  unfold code_points
  induction fuel with
  | zero =>
    have : src.length = 0 := by omega
    rw [this]
  | succ fuel ih =>
    by_cases hf : src.length ≤ fuel
    · rw [code_points_aux_fuel fuel src hf, ih hf]
    · have : src.length = fuel + 1 := by omega
      rw [this]

/-- The code points of a string, unfolded once. -/
theorem code_points_unfold (src : List Nat) :
    code_points src =
      if src.getD 0 0 = 0 then []
      else (_utf8next src).1 :: code_points (src.drop (_utf8next src).2) := by
  cases src with
  | nil => simp [code_points, code_points_aux]
  | cons b bs =>
    have := utf8next_advances (b :: bs)
    rw [← code_points_aux_eq bs.length ((b :: bs).drop (_utf8next (b :: bs)).2)
      (by rw [List.length_drop, List.length_cons]; omega)]
    simp only [code_points, List.length_cons, code_points_aux_succ]

theorem code_points_ne_zero (src : List Nat) : ∀ c ∈ code_points src, c ≠ 0 := by
  have key : ∀ fuel src, ∀ c ∈ code_points_aux fuel src, c ≠ 0 := by
    intro fuel
    induction fuel with
    | zero => intro src c hc; simp [code_points_aux] at hc
    | succ fuel ih =>
      intro src c hc
      rw [code_points_aux_succ] at hc
      split at hc
      · simp at hc
      · rename_i h0
        rcases List.mem_cons.mp hc with h | h
        · rw [h]; exact utf8next_ne_zero src h0
        · exact ih _ c h
  exact key _ src

theorem take_set_succ (dst : List Nat) (i v : Nat) (h : i < dst.length) :
    (dst.set i v).take (i + 1) = dst.take i ++ [v] := by
  rw [List.set_eq_take_append_cons_drop, if_pos h, List.take_append_eq_append_take,
    List.length_take, Nat.min_eq_left (Nat.le_of_lt h), List.take_take]
  simp

theorem encode_chars_spec (n : Nat) :
    ∀ (i : Nat) (src dst : List Nat), i + n ≤ dst.length →
      encode_chars n i src dst =
        (dst.take i ++ ((code_points src).take n).map ebu_code ++
            dst.drop (i + min n (code_points src).length),
          i + min n (code_points src).length) := by
  induction n with
  | zero => intro i src dst _; simp [encode_chars]
  | succ n ih =>
    intro i src dst h
    rw [encode_chars, code_points_unfold src]
    by_cases h0 : src.getD 0 0 = 0
    · rw [if_neg (not_not.mpr h0), if_pos h0]
      simp
    · rw [if_pos h0, if_neg h0, ih _ _ _ (by rw [List.length_set]; omega),
        take_set_succ _ _ _ (by omega), List.drop_set_of_lt _ _ (by omega)]
      simp only [List.take_succ_cons, List.map_cons, List.length_cons, Nat.succ_min_succ,
        List.append_assoc, List.singleton_append, Prod.mk.injEq]
      constructor
      · congr 3; omega
      · omega

theorem zero_fill_spec (n : Nat) :
    ∀ (i : Nat) (dst : List Nat), i + n ≤ dst.length →
      zero_fill n i dst = dst.take i ++ List.replicate n 0 ++ dst.drop (i + n) := by
  induction n with
  | zero => intro i dst _; simp [zero_fill]
  | succ n ih =>
    intro i dst h
    rw [zero_fill, ih _ _ (by rw [List.length_set]; omega), take_set_succ _ _ _ (by omega),
      List.drop_set_of_lt _ _ (by omega)]
    simp only [List.replicate_succ, List.append_assoc, List.singleton_append]
    congr 3; omega

/-- What `_encode_ebu_string` leaves in `dst`, as one list. -/
theorem encode_ebu_string_eq (dst src : List Nat) (len : Nat) (h : len ≤ dst.length) :
    _encode_ebu_string dst src len =
      ((code_points src).take len).map ebu_code ++
        List.replicate (len - min len (code_points src).length) 0 ++ dst.drop len := by
  unfold _encode_ebu_string
  rw [encode_chars_spec len 0 src dst (by omega)]
  simp only [List.take_zero, List.nil_append, Nat.zero_add]
  have hk : min len (code_points src).length ≤ len := Nat.min_le_left _ _
  have hl : (List.map ebu_code (List.take len (code_points src))).length =
      min len (code_points src).length := by simp
  rw [zero_fill_spec _ _ _ (by simp; omega)]
  rw [List.take_append_eq_append_take, List.drop_append_eq_append_drop, hl]
  simp only [Nat.sub_self, List.take_zero, List.append_nil, List.drop_drop]
  rw [List.take_of_length_le (by omega), List.drop_eq_nil_of_le (by omega)]
  simp only [List.nil_append, List.append_assoc]
  congr 3
  omega

set_option maxRecDepth 10000 in
theorem charset_length : _charset.length = 256 := by decide

theorem charset_lookup_le (c : Nat) : charset_lookup c ≤ 256 := by
  have := @List.findIdx_le_length _ (fun e => c == (_utf8next e).1) _charset
  rw [charset_length] at this
  exact this

theorem charset_lookup_found (c : Nat) (h : charset_lookup c < 256) :
    (_utf8next (_charset.getD (charset_lookup c) [])).1 = c := by
  have hw : _charset.findIdx (fun e => c == (_utf8next e).1) < _charset.length := by
    rw [charset_length]; exact h
  have := List.findIdx_getElem (w := hw)
  rw [List.getD_eq_getElem?_getD]
  unfold charset_lookup
  rw [List.getElem?_eq_getElem hw]
  simp only [Option.getD_some]
  simp only [beq_iff_eq] at this
  exact this.symm

theorem charset_lookup_none (c : Nat) (h : charset_lookup c = 256) :
    ∀ j, j < 256 → (_utf8next (_charset.getD j [])).1 ≠ c := by
  intro j hj
  have hj2 : j < _charset.length := by rw [charset_length]; exact hj
  have h2 : _charset.findIdx (fun e => c == (_utf8next e).1) = _charset.length := by
    rw [charset_length]; exact h
  have := (List.findIdx_eq_length.mp h2) _charset[j] (List.getElem_mem _)
  rw [List.getD_eq_getElem?_getD, List.getElem?_eq_getElem hj2]
  intro hc
  simp only [Option.getD_some] at hc
  simp only [beq_eq_false_iff_ne, ne_eq] at this
  exact this hc.symm

set_option maxRecDepth 1000000 in
set_option maxHeartbeats 4000000 in
/-- Facts read off the table by evaluation: a non-empty entry holds no zero
first byte, decodes without error to one code point that takes all its bytes,
and is the first entry with that code point. -/
theorem charset_entries :
    ∀ j : Fin 256, _charset.getD j.val [] = [] ∨
      ((_charset.getD j.val []).getD 0 0 ≠ 0 ∧
        (_utf8next (_charset.getD j.val [])).1 ≠ 0xFFFD ∧
        (_utf8next (_charset.getD j.val [])).2 = (_charset.getD j.val []).length ∧
        charset_lookup (_utf8next (_charset.getD j.val [])).1 = j.val) := by
  decide

set_option maxRecDepth 1000000 in
theorem replacement_is_space : ebu_code 0xFFFD = 0x20 := by decide

theorem utf8next_nil : _utf8next [] = (0, 1) := rfl

/-- Non-empty entries of the table have pairwise distinct code points. -/
theorem charset_distinct (j k : Nat) (hj : j < 256) (hk : k < 256)
    (hne : (_utf8next (_charset.getD j [])).1 ≠ 0)
    (h : (_utf8next (_charset.getD j [])).1 = (_utf8next (_charset.getD k [])).1) : j = k := by
  have hj2 := charset_entries ⟨j, hj⟩
  have hk2 := charset_entries ⟨k, hk⟩
  simp only at hj2 hk2
  rcases hj2 with hj2 | ⟨-, -, -, hj2⟩
  · rw [hj2, utf8next_nil] at hne; exact absurd rfl hne
  · rcases hk2 with hk2 | ⟨-, -, -, hk2⟩
    · rw [h, hk2, utf8next_nil] at hne; exact absurd rfl hne
    · rw [← hj2, ← hk2, h]

theorem ebu_code_cases (c : Nat) :
    (ebu_code c < 256 ∧ charset_lookup c = ebu_code c ∧
        (_utf8next (_charset.getD (ebu_code c) [])).1 = c) ∨
      ((∀ j, j < 256 → (_utf8next (_charset.getD j [])).1 ≠ c) ∧ ebu_code c = 0x20) := by
  have hle := charset_lookup_le c
  by_cases h : charset_lookup c = 256
  · right
    exact ⟨charset_lookup_none c h, by simp [ebu_code, h]⟩
  · left
    have hlt : charset_lookup c < 256 := by omega
    have he : ebu_code c = charset_lookup c := by simp [ebu_code, h]
    rw [he]
    exact ⟨hlt, rfl, charset_lookup_found c hlt⟩

theorem ebu_code_ne_zero (c : Nat) (hc : c ≠ 0) : ebu_code c ≠ 0 := by
  rcases ebu_code_cases c with ⟨-, -, h⟩ | ⟨-, h⟩
  · intro h0
    rw [h0] at h
    have : (_utf8next (_charset.getD 0 [])).1 = 0 := rfl
    omega
  · omega

/-- C6. `_encode_ebu_string` writes exactly `len` bytes: the codes of the
first `len` code points of `src` (read by `_utf8next` up to the terminating
zero), each the index of the table entry with that code point or 0x20 when no
entry has it (U+FFFD among these), then zeros up to `len`.  Written codes are
not zero, and an empty string gives `len` zero bytes. -/
theorem encode_ebu_string_spec (dst src : List Nat) (len : Nat) (hdst : len ≤ dst.length) :
    _encode_ebu_string dst src len =
        ((code_points src).take len).map ebu_code ++
          List.replicate (len - min len (code_points src).length) 0 ++ dst.drop len ∧
    (code_points src =
        if src.getD 0 0 = 0 then []
        else (_utf8next src).1 :: code_points (src.drop (_utf8next src).2)) ∧
    (∀ i, i < min len (code_points src).length →
      (_encode_ebu_string dst src len).getD i 0 = ebu_code ((code_points src).getD i 0) ∧
      (_encode_ebu_string dst src len).getD i 0 ≠ 0) ∧
    (∀ i, min len (code_points src).length ≤ i → i < len →
      (_encode_ebu_string dst src len).getD i 0 = 0) ∧
    (∀ c, (ebu_code c < 256 ∧ charset_lookup c = ebu_code c ∧
          (_utf8next (_charset.getD (ebu_code c) [])).1 = c) ∨
        ((∀ j, j < 256 → (_utf8next (_charset.getD j [])).1 ≠ c) ∧ ebu_code c = 0x20)) ∧
    (∀ j k, j < 256 → k < 256 → (_utf8next (_charset.getD j [])).1 ≠ 0 →
      (_utf8next (_charset.getD j [])).1 = (_utf8next (_charset.getD k [])).1 → j = k) ∧
    ebu_code 0xFFFD = 0x20 ∧
    (src.getD 0 0 = 0 → (_encode_ebu_string dst src len).take len = List.replicate len 0) := by
  have heq := encode_ebu_string_eq dst src len hdst
  have hk : min len (code_points src).length ≤ len := Nat.min_le_left _ _
  have hl : (List.map ebu_code (List.take len (code_points src))).length =
      min len (code_points src).length := by simp
  refine ⟨heq, code_points_unfold src, ?_, ?_, ebu_code_cases, charset_distinct,
    replacement_is_space, ?_⟩
  · intro i hi
    have hget : (_encode_ebu_string dst src len).getD i 0 =
        ebu_code ((code_points src).getD i 0) := by
      have hi1 : i < (code_points src).length := by omega
      have hi2 : i < len := by omega
      rw [heq, List.append_assoc, List.getD_eq_getElem?_getD,
        List.getElem?_append_left (by rw [hl]; exact hi)]
      simp [List.getElem?_take, hi2, List.getElem?_eq_getElem hi1]
    refine ⟨hget, ?_⟩
    rw [hget]
    apply ebu_code_ne_zero
    have hi1 : i < (code_points src).length := by omega
    rw [List.getD_eq_getElem?_getD, List.getElem?_eq_getElem hi1]
    exact code_points_ne_zero src _ (List.getElem_mem _)
  · intro i hi1 hi2
    rw [heq, List.append_assoc, List.getD_eq_getElem?_getD,
      List.getElem?_append_right (by rw [hl]; exact hi1), hl,
      List.getElem?_append_left (by rw [List.length_replicate]; omega)]
    simp only [List.getElem?_replicate]
    split <;> rfl
  · intro h0
    have hnil : code_points src = [] := by rw [code_points_unfold, if_pos h0]
    rw [heq, hnil]
    simp

theorem encode_ebu_string_spec_witness :
    32 ≤ (List.replicate 32 7).length ∧
    _encode_ebu_string (List.replicate 32 7) [0x41, 0xC3, 0xB1, 0xE2, 0x82, 0xAC, 0xFF] 32 =
      ((code_points [0x41, 0xC3, 0xB1, 0xE2, 0x82, 0xAC, 0xFF]).take 32).map ebu_code ++
        List.replicate (32 - min 32 (code_points [0x41, 0xC3, 0xB1, 0xE2, 0x82, 0xAC, 0xFF]).length) 0 ++
        (List.replicate 32 7).drop 32 :=
  ⟨by decide, (encode_ebu_string_spec _ _ 32 (by decide)).1⟩

/-! ### Round trip through the character set -/

theorem getD_zero_append (e rest : List Nat) (he : e ≠ []) :
    (e ++ rest).getD 0 0 = e.getD 0 0 := by
  simp only [List.getD_eq_getElem?_getD, List.getElem?_append_left (List.length_pos.mpr he)]

theorem utf8_tail_append (e rest : List Nat) (b : Nat) :
    ∀ c u next, (utf8_tail e b c u next).1 ≠ none →
      utf8_tail (e ++ rest) b c u next = utf8_tail e b c u next := by
  induction b with
  | zero => intro c u next _; rfl
  | succ b ih =>
    intro c u next h
    rw [utf8_tail] at h ⊢
    by_cases hc : c + 1 < e.length
    · have hg : (e ++ rest).getD (c + 1) 0 = e.getD (c + 1) 0 := by
        simp only [List.getD_eq_getElem?_getD, List.getElem?_append_left hc]
      rw [hg]
      rw [utf8_tail]
      split
      · rfl
      · rename_i hcont
        rw [if_neg hcont] at h
        exact ih _ _ _ h
    · have hz : e.getD (c + 1) 0 = 0 := by
        rw [List.getD_eq_getElem?_getD, List.getElem?_eq_none (by omega)]
        rfl
      rw [hz] at h
      simp at h

theorem utf8_finish_append (r1 r2 : Option Nat × Nat) (m : Nat)
    (h : (utf8_finish r2 m).1 ≠ 0xFFFD) (hr : r2.1 ≠ none → r1 = r2) :
    utf8_finish r1 m = utf8_finish r2 m := by
  by_cases hn : r2.1 = none
  · exfalso
    apply h
    unfold utf8_finish
    rw [hn]
  · rw [hr hn]

/-- A string that `_utf8next` decodes without error decodes the same way with
more bytes after it. -/
theorem utf8next_append (e rest : List Nat) (he : e ≠ [])
    (h : (_utf8next e).1 ≠ 0xFFFD) : _utf8next (e ++ rest) = _utf8next e := by
  have h0 : (e ++ rest).getD 0 0 = e.getD 0 0 := getD_zero_append e rest he
  unfold _utf8next at h ⊢
  rw [h0]
  split
  · rfl
  · rename_i h1
    rw [if_neg h1] at h
    split
    · rename_i h2
      rw [if_pos h2] at h
      exact utf8_finish_append _ _ _ h (utf8_tail_append e rest _ _ _ _)
    · rename_i h2
      rw [if_neg h2] at h
      split
      · rename_i h3
        rw [if_pos h3] at h
        exact utf8_finish_append _ _ _ h (utf8_tail_append e rest _ _ _ _)
      · rename_i h3
        rw [if_neg h3] at h
        split
        · rename_i h4
          rw [if_pos h4] at h
          exact utf8_finish_append _ _ _ h (utf8_tail_append e rest _ _ _ _)
        · rfl

set_option maxRecDepth 10000 in
theorem charset_zero : _charset.getD 0 [] = [] := rfl

/-- The glyph of code `j`: the table entry. -/
theorem glyph_decodes (j : Nat) (hj : j < 256) (hne : _charset.getD j [] ≠ []) (rest : List Nat) :
    (_charset.getD j [] ++ rest).getD 0 0 ≠ 0 ∧
    _utf8next (_charset.getD j [] ++ rest) =
      ((_utf8next (_charset.getD j [])).1, (_charset.getD j []).length) ∧
    ebu_code (_utf8next (_charset.getD j [])).1 = j ∧ j ≠ 0 ∧
    (_charset.getD j []).getD 0 0 ≠ 0 := by
  have hj2 := charset_entries ⟨j, hj⟩
  simp only at hj2
  rcases hj2 with hj2 | ⟨h1, h2, h3, h4⟩
  · exact absurd hj2 hne
  · refine ⟨?_, ?_, ?_, ?_, h1⟩
    · rw [getD_zero_append _ _ hne]
      exact h1
    · rw [utf8next_append _ _ hne h2, ← h3]
    · unfold ebu_code
      rw [h4, if_neg (by omega)]
    · intro h0
      subst h0
      exact hne charset_zero

theorem code_points_glyphs (js : List Nat)
    (hjs : ∀ j ∈ js, j < 256 ∧ _charset.getD j [] ≠ []) :
    code_points (js.flatMap fun j => _charset.getD j []) =
      js.map fun j => (_utf8next (_charset.getD j [])).1 := by
  induction js with
  | nil => rfl
  | cons j js ih =>
    obtain ⟨hj, hne⟩ := hjs j (List.mem_cons_self _ _)
    obtain ⟨h1, h2, -, -, -⟩ := glyph_decodes j hj hne (js.flatMap fun j => _charset.getD j [])
    rw [List.flatMap_cons, code_points_unfold, if_neg h1, h2]
    simp only [List.drop_left, List.map_cons]
    rw [ih (fun k hk => hjs k (List.mem_cons_of_mem _ hk))]

theorem map_ebu_code_glyphs (js : List Nat)
    (hjs : ∀ j ∈ js, j < 256 ∧ _charset.getD j [] ≠ []) :
    (js.map fun j => (_utf8next (_charset.getD j [])).1).map ebu_code = js := by
  induction js with
  | nil => rfl
  | cons j js ih =>
    obtain ⟨hj, hne⟩ := hjs j (List.mem_cons_self _ _)
    obtain ⟨-, -, h3, -, -⟩ := glyph_decodes j hj hne []
    simp only [List.map_cons, h3]
    rw [ih (fun k hk => hjs k (List.mem_cons_of_mem _ hk))]

theorem decode_chars_codes (js : List Nat)
    (hjs : ∀ j ∈ js, j < 256 ∧ _charset.getD j [] ≠ []) :
    ∀ (n : Nat) (rest acc : List Nat), js.length ≤ n → (n = js.length ∨ rest.getD 0 0 = 0) →
      decode_chars n (js ++ rest) acc = acc ++ js.flatMap fun j => _charset.getD j [] := by
  induction js with
  | nil =>
    intro n rest acc _ h
    cases n with
    | zero => simp [decode_chars]
    | succ n =>
      have h0 : rest.getD 0 0 = 0 := by
        rcases h with h | h
        · simp at h
        · exact h
      simp only [decode_chars, List.nil_append, h0]
      simp
  | cons j js ih =>
    intro n rest acc hn h
    obtain ⟨hj, hne⟩ := hjs j (List.mem_cons_self _ _)
    obtain ⟨-, -, -, hj0, hfirst⟩ := glyph_decodes j hj hne []
    cases n with
    | zero => simp at hn
    | succ n =>
      have hhead : (j :: js ++ rest).getD 0 0 = j := rfl
      rw [decode_chars, hhead, if_pos hj0, if_pos hfirst]
      simp only [List.cons_append, List.drop_succ_cons, List.drop_zero]
      rw [ih (fun k hk => hjs k (List.mem_cons_of_mem _ hk)) n rest _
        (by simp at hn; omega) (by rcases h with h | h; · left; simp at h; omega
                                   · right; exact h)]
      simp

/-- C7. A text of at most 32 glyphs, each a non-empty entry of `_charset`,
comes back byte for byte from `_decode_ebu_string` after `_encode_ebu_string`
with width 32; the non-empty entries are single code points, pairwise
distinct, and code 0 has no glyph. -/
theorem ebu_round_trip (dst js : List Nat) (hdst : dst.length = 32) (hlen : js.length ≤ 32)
    (hjs : ∀ j ∈ js, j < 256 ∧ _charset.getD j [] ≠ []) :
    _decode_ebu_string (_encode_ebu_string dst (js.flatMap fun j => _charset.getD j []) 32) 32 =
        (js.flatMap fun j => _charset.getD j []) ∧
    _encode_ebu_string dst (js.flatMap fun j => _charset.getD j []) 32 =
        js ++ List.replicate (32 - js.length) 0 ∧
    (∀ j k, j < 256 → k < 256 → _charset.getD j [] ≠ [] →
      (_utf8next (_charset.getD j [])).1 = (_utf8next (_charset.getD k [])).1 → j = k) ∧
    (∀ j, j < 256 → _charset.getD j [] ≠ [] →
      code_points (_charset.getD j []) = [(_utf8next (_charset.getD j [])).1]) ∧
    _charset.getD 0 [] = [] := by
  have henc : _encode_ebu_string dst (js.flatMap fun j => _charset.getD j []) 32 =
      js ++ List.replicate (32 - js.length) 0 := by
    rw [encode_ebu_string_eq _ _ _ (by omega), code_points_glyphs js hjs,
      List.take_of_length_le (by simpa using hlen), map_ebu_code_glyphs js hjs,
      List.drop_eq_nil_of_le (by omega)]
    simp [Nat.min_eq_right hlen]
  refine ⟨?_, henc, ?_, ?_, charset_zero⟩
  · rw [henc]
    unfold _decode_ebu_string
    rw [decode_chars_codes js hjs 32 _ [] hlen]
    · simp
    · by_cases h : js.length = 32
      · left; exact h.symm
      · right
        have : 32 - js.length = (32 - js.length - 1) + 1 := by omega
        rw [this, List.replicate_succ]
        rfl
  · intro j k hj hk hne h
    apply charset_distinct j k hj hk _ h
    obtain ⟨h1, h2, -, -, -⟩ := glyph_decodes j hj hne []
    rw [List.append_nil] at h1
    exact utf8next_ne_zero _ h1
  · intro j hj hne
    have := code_points_glyphs [j]
      (fun k hk => by rw [List.mem_singleton] at hk; subst hk; exact ⟨hj, hne⟩)
    simp only [List.flatMap_cons, List.flatMap_nil, List.append_nil, List.map_cons,
      List.map_nil] at this
    exact this

set_option maxRecDepth 100000 in
theorem ebu_round_trip_witness :
    ((List.replicate 32 0).length = 32 ∧ [0x54, 0x9A, 0xA9].length ≤ 32 ∧
      ∀ j ∈ [0x54, 0x9A, 0xA9], j < 256 ∧ _charset.getD j [] ≠ []) ∧
    _decode_ebu_string
        (_encode_ebu_string (List.replicate 32 0)
          ([0x54, 0x9A, 0xA9].flatMap fun j => _charset.getD j []) 32) 32 =
      ([0x54, 0x9A, 0xA9].flatMap fun j => _charset.getD j []) :=
  ⟨⟨by decide, by decide, by decide⟩,
    (ebu_round_trip (List.replicate 32 0) [0x54, 0x9A, 0xA9] (by decide) (by decide)
      (by decide)).1⟩

/-! ### Frame scheduling (adrenc.c:241-276) -/

/-- Generating a message leaves the configuration, the frame counter and the
frame buffers. -/
theorem next_message_keeps (s : _adrenc_t) :
    (next_message s).scfcrc = s.scfcrc ∧ (next_message s).frame = s.frame ∧
    (next_message s).mp2buffer = s.mp2buffer ∧ (next_message s).station_id = s.station_id ∧
    (next_message s).dc4_mode = s.dc4_mode := by
  obtain ⟨sid, scf, mp2, fr, cp, cm, ci, mode⟩ := s
  match ci with
  | 0 => exact ⟨rfl, rfl, rfl, rfl, rfl⟩
  | 1 => exact ⟨rfl, rfl, rfl, rfl, rfl⟩
  | 2 => exact ⟨rfl, rfl, rfl, rfl, rfl⟩
  | n + 3 => exact ⟨rfl, rfl, rfl, rfl, rfl⟩

theorem control_byte_keeps (s : _adrenc_t) :
    (control_byte s).2.scfcrc = s.scfcrc ∧ (control_byte s).2.frame = s.frame ∧
    (control_byte s).2.mp2buffer = s.mp2buffer ∧ (control_byte s).2.station_id = s.station_id ∧
    (control_byte s).2.dc4_mode = s.dc4_mode := by
  unfold control_byte
  split
  · exact next_message_keeps s
  · exact ⟨rfl, rfl, rfl, rfl, rfl⟩

theorem insert_adr_ancillary_keeps (s : _adrenc_t) (data : List Nat) :
    (_insert_adr_ancillary s data).1.scfcrc = s.scfcrc ∧
    (_insert_adr_ancillary s data).1.frame = s.frame ∧
    (_insert_adr_ancillary s data).1.mp2buffer = s.mp2buffer := by
  have h1 := control_byte_keeps s
  have h2 := control_byte_keeps (control_byte s).2
  have h3 := control_byte_keeps (control_byte (control_byte s).2).2
  show (control_data s).2.scfcrc = _ ∧ (control_data s).2.frame = _ ∧
    (control_data s).2.mp2buffer = _
  unfold control_data
  simp only
  exact ⟨by rw [h3.1, h2.1, h1.1], by rw [h3.2.1, h2.2.1, h1.2.1],
    by rw [h3.2.2.1, h2.2.2.1, h1.2.2.1]⟩

/-- The message buffer, cursor and rotation index after a pass of the control
data loop do not depend on the frame buffers. -/
theorem next_message_mp2buffer (s : _adrenc_t) (b : List Nat × List Nat) :
    next_message { s with mp2buffer := b } = { next_message s with mp2buffer := b } := by
  obtain ⟨sid, scf, mp2, fr, cp, cm, ci, mode⟩ := s
  match ci with
  | 0 => rfl
  | 1 => rfl
  | 2 => rfl
  | n + 3 => rfl

theorem control_byte_mp2buffer (s : _adrenc_t) (b : List Nat × List Nat) :
    control_byte { s with mp2buffer := b } =
      ((control_byte s).1, { (control_byte s).2 with mp2buffer := b }) := by
  unfold control_byte
  simp only [next_message_mp2buffer]
  split <;> rfl

theorem insert_adr_ancillary_mp2buffer (s : _adrenc_t) (b : List Nat × List Nat)
    (data : List Nat) :
    (_insert_adr_ancillary { s with mp2buffer := b } data).2 = (_insert_adr_ancillary s data).2 := by
  have hc : (control_data { s with mp2buffer := b }).1 = (control_data s).1 := by
    simp only [control_data, control_byte_mp2buffer]
  simp only [_insert_adr_ancillary, ancillary_bytes, hc]

theorem slot_set_slot (b : List Nat × List Nat) (i : Nat) (v : List Nat) :
    slot (set_slot b i v) i = v := by
  unfold slot set_slot
  split <;> simp [*]

theorem slot_set_slot_other (b : List Nat × List Nat) (n : Nat) (v : List Nat) :
    slot (set_slot b ((n + 1) &&& 1) v) (n &&& 1) = slot b (n &&& 1) ∧
    slot (set_slot b (n &&& 1) v) ((n + 1) &&& 1) = slot b ((n + 1) &&& 1) := by
  simp only [Nat.and_one_is_mod]
  unfold slot set_slot
  rcases Nat.mod_two_eq_zero_or_one n with h | h
  · have h2 : (n + 1) % 2 = 1 := by omega
    simp [h, h2]
  · have h2 : (n + 1) % 2 = 0 := by omega
    simp [h, h2]

/-- A call in which the encoder yields no bytes. -/
theorem encode_adr_frame_nothing (tw : Twolame) (pcm : Bool) (s : _adrenc_t)
    (hr : (encoder_call tw pcm).1 ≤ 0) :
    _encode_adr_frame tw pcm s =
      (none, { s with
        mp2buffer := set_slot s.mp2buffer ((s.frame + 1) &&& 1) (encoder_call tw pcm).2 }) := by
  unfold _encode_adr_frame
  simp only [if_neg (not_lt.mpr hr)]

/-- A call in which the encoder returns a frame. -/
theorem encode_adr_frame_built (tw : Twolame) (pcm : Bool) (s : _adrenc_t)
    (hr : 0 < (encoder_call tw pcm).1) :
    (_encode_adr_frame tw pcm s).2.frame = s.frame + 1 ∧
    (_encode_adr_frame tw pcm s).2.scfcrc = s.scfcrc ∧
    slot (_encode_adr_frame tw pcm s).2.mp2buffer ((s.frame + 1) &&& 1) = built_frame tw pcm s ∧
    (s.scfcrc = 0 → (_encode_adr_frame tw pcm s).1 = some ((s.frame + 1) &&& 1)) ∧
    (s.scfcrc ≠ 0 → s.frame = 0 → (_encode_adr_frame tw pcm s).1 = none) ∧
    (s.scfcrc ≠ 0 → 0 < s.frame →
      (_encode_adr_frame tw pcm s).1 = some (s.frame &&& 1) ∧
      slot (_encode_adr_frame tw pcm s).2.mp2buffer (s.frame &&& 1) =
        tw.set_DAB_scf_crc (slot s.mp2buffer (s.frame &&& 1)) (encoder_call tw pcm).1) := by
  have hslot : slot (set_slot s.mp2buffer ((s.frame + 1) &&& 1) (encoder_call tw pcm).2)
      ((s.frame + 1) &&& 1) = (encoder_call tw pcm).2 := slot_set_slot _ _ _
  obtain ⟨k1, k2, k3⟩ := insert_adr_ancillary_keeps
    { s with mp2buffer := set_slot s.mp2buffer ((s.frame + 1) &&& 1) (encoder_call tw pcm).2 }
    (encoder_call tw pcm).2
  have hb := insert_adr_ancillary_mp2buffer s
    (set_slot s.mp2buffer ((s.frame + 1) &&& 1) (encoder_call tw pcm).2) (encoder_call tw pcm).2
  simp only at k1 k2 k3
  unfold built_frame
  unfold _encode_adr_frame
  simp only [if_pos hr, hslot, k1, k2, k3, hb, Nat.add_zero]
  by_cases h0 : s.scfcrc = 0
  · simp only [if_pos h0, slot_set_slot]
    simp [h0]
  · by_cases hf : 0 < s.frame
    · simp only [if_neg h0, if_pos hf, slot_set_slot, (slot_set_slot_other _ s.frame _).1,
        (slot_set_slot_other _ s.frame _).2]
      simp only [h0, hf, true_and, and_self, and_true, false_implies, implies_true, ne_eq,
        not_false_eq_true, true_implies]
      omega
    · have hf0 : s.frame = 0 := by omega
      simp only [if_neg h0, if_neg hf, slot_set_slot]
      simp [h0, hf0]

theorem count_calls_succ (p : Nat → Bool) (n : Nat) :
    count_calls p (n + 1) = count_calls p n + (if p n then 1 else 0) := by
  unfold count_calls
  rw [List.range_succ, List.filter_append, List.length_append]
  by_cases h : p n <;> simp [h]

theorem state_before_succ (s0 : _adrenc_t) (calls : Nat → Twolame × Bool) (k : Nat) :
    state_before s0 calls (k + 1) =
      (_encode_adr_frame (calls k).1 (calls k).2 (state_before s0 calls k)).2 := rfl

theorem state_before_scfcrc (s0 : _adrenc_t) (calls : Nat → Twolame × Bool) (k : Nat) :
    (state_before s0 calls k).scfcrc = s0.scfcrc := by
  induction k with
  | zero => rfl
  | succ k ih =>
    rw [state_before]
    by_cases hr : 0 < (encoder_call (calls k).1 (calls k).2).1
    · rw [(encode_adr_frame_built _ _ _ hr).2.1, ih]
    · rw [encode_adr_frame_nothing _ _ _ (not_lt.mp hr)]
      exact ih

/-- The frame counter counts the calls in which the encoder returned a frame. -/
theorem state_before_frame (s0 : _adrenc_t) (calls : Nat → Twolame × Bool) (n : Nat) :
    (state_before s0 calls n).frame =
      s0.frame + count_calls (fun k => decide (0 < (encoder_call (calls k).1 (calls k).2).1)) n := by
  induction n with
  | zero => rfl
  | succ n ih =>
    rw [state_before, count_calls_succ]
    by_cases hr : 0 < (encoder_call (calls n).1 (calls n).2).1
    · rw [(encode_adr_frame_built _ _ _ hr).1, ih]
      simp [hr]
      omega
    · rw [encode_adr_frame_nothing _ _ _ (not_lt.mp hr)]
      simp [hr]
      exact ih

/-- C10. In both modes a call in which the encoder yields no bytes returns no
frame and leaves the frame counter, the message buffer, the cursor and the
rotation index; a call in which it returns a frame adds one to the frame
counter; so the counter grows by the number of calls with a frame. -/
theorem encode_adr_frame_counter (s0 : _adrenc_t) (calls : Nat → Twolame × Bool) (n : Nat) :
    (∀ (tw : Twolame) (pcm : Bool) (s : _adrenc_t), (encoder_call tw pcm).1 ≤ 0 →
      (_encode_adr_frame tw pcm s).1 = none ∧
      (_encode_adr_frame tw pcm s).2.frame = s.frame ∧
      (_encode_adr_frame tw pcm s).2.cmsg = s.cmsg ∧
      (_encode_adr_frame tw pcm s).2.cptr = s.cptr ∧
      (_encode_adr_frame tw pcm s).2.cindex = s.cindex) ∧
    (∀ (tw : Twolame) (pcm : Bool) (s : _adrenc_t), 0 < (encoder_call tw pcm).1 →
      (_encode_adr_frame tw pcm s).2.frame = s.frame + 1) ∧
    (state_before s0 calls n).frame =
      s0.frame + count_calls (fun k => decide (0 < (encoder_call (calls k).1 (calls k).2).1)) n := by
  refine ⟨?_, ?_, state_before_frame s0 calls n⟩
  · intro tw pcm s hr
    rw [encode_adr_frame_nothing tw pcm s hr]
    exact ⟨rfl, rfl, rfl, rfl, rfl⟩
  · intro tw pcm s hr
    exact (encode_adr_frame_built tw pcm s hr).1

/-- C9. With the integrity check disabled every call in which the encoder
returns a frame returns the buffer just written, holding the frame just built
(ancillary data inserted), and a call without a frame returns nothing; so
from frame counter 0 the frames emitted are as many as the frames produced,
which is the frame counter. -/
theorem immediate_emission (s0 : _adrenc_t) (calls : Nat → Twolame × Bool)
    (hcrc : s0.scfcrc = 0) (hframe : s0.frame = 0) (n : Nat) :
    (∀ k, 0 < (encoder_call (calls k).1 (calls k).2).1 →
      returned s0 calls k = some (((state_before s0 calls k).frame + 1) &&& 1) ∧
      slot (state_before s0 calls (k + 1)).mp2buffer (((state_before s0 calls k).frame + 1) &&& 1) =
        built_frame (calls k).1 (calls k).2 (state_before s0 calls k) ∧
      emitted s0 calls k =
        some ((built_frame (calls k).1 (calls k).2 (state_before s0 calls k)).take ADR_FRAME_LEN)) ∧
    (∀ k, (encoder_call (calls k).1 (calls k).2).1 ≤ 0 → emitted s0 calls k = none) ∧
    count_calls (fun k => (emitted s0 calls k).isSome) n =
      count_calls (fun k => decide (0 < (encoder_call (calls k).1 (calls k).2).1)) n ∧
    count_calls (fun k => decide (0 < (encoder_call (calls k).1 (calls k).2).1)) n =
      (state_before s0 calls n).frame := by
  have hyes : ∀ k, 0 < (encoder_call (calls k).1 (calls k).2).1 →
      returned s0 calls k = some (((state_before s0 calls k).frame + 1) &&& 1) ∧
      slot (state_before s0 calls (k + 1)).mp2buffer (((state_before s0 calls k).frame + 1) &&& 1) =
        built_frame (calls k).1 (calls k).2 (state_before s0 calls k) ∧
      emitted s0 calls k =
        some ((built_frame (calls k).1 (calls k).2 (state_before s0 calls k)).take ADR_FRAME_LEN) := by
    intro k hr
    obtain ⟨-, -, h3, h4, -, -⟩ := encode_adr_frame_built (calls k).1 (calls k).2
      (state_before s0 calls k) hr
    have hret := h4 (by rw [state_before_scfcrc, hcrc])
    refine ⟨hret, h3, ?_⟩
    unfold emitted
    rw [show returned s0 calls k = _ from hret]
    simp only [Option.map_some']
    rw [state_before_succ, h3]
  have hno : ∀ k, (encoder_call (calls k).1 (calls k).2).1 ≤ 0 → emitted s0 calls k = none := by
    intro k hr
    unfold emitted returned
    rw [encode_adr_frame_nothing _ _ _ hr]
    rfl
  refine ⟨hyes, hno, ?_, ?_⟩
  · induction n with
    | zero => rfl
    | succ n ih =>
      rw [count_calls_succ, count_calls_succ, ih]
      by_cases hr : 0 < (encoder_call (calls n).1 (calls n).2).1
      · simp [(hyes n hr).2.2, hr]
      · simp [hno n (not_lt.mp hr), hr]
  · rw [state_before_frame, hframe, Nat.zero_add]

theorem getD_take (l : List Nat) (n p : Nat) (h : p < n) : (l.take n).getD p 0 = l.getD p 0 := by
  simp only [List.getD_eq_getElem?_getD, List.getElem?_take, if_pos h]

/-- C8. With the integrity check enabled, from frame counter 0 and with the
encoder returning a frame in each of the first `n` calls: call 0 returns no
frame; call `j + 1` returns the buffer that holds the frame built in call
`j`, which `main` writes after `twolame_set_DAB_scf_crc` has run on it, every
byte that this library call leaves alone (the ancillary data, if it does) as
built; so `n - 1` frames are emitted, in input order, the frame built in the
last call not among them. -/
theorem delayed_emission (s0 : _adrenc_t) (calls : Nat → Twolame × Bool) (n : Nat)
    (hcrc : s0.scfcrc ≠ 0) (hframe : s0.frame = 0)
    (hr : ∀ k, k < n → 0 < (encoder_call (calls k).1 (calls k).2).1) :
    (0 < n → returned s0 calls 0 = none) ∧
    (∀ j, j + 1 < n →
      returned s0 calls (j + 1) = some ((j + 1) &&& 1) ∧
      slot (state_before s0 calls (j + 1)).mp2buffer ((j + 1) &&& 1) =
        built_frame (calls j).1 (calls j).2 (state_before s0 calls j) ∧
      emitted s0 calls (j + 1) =
        some (((calls (j + 1)).1.set_DAB_scf_crc
          (built_frame (calls j).1 (calls j).2 (state_before s0 calls j))
          (encoder_call (calls (j + 1)).1 (calls (j + 1)).2).1).take ADR_FRAME_LEN) ∧
      (∀ p, p < ADR_FRAME_LEN →
        (∀ buf r, ((calls (j + 1)).1.set_DAB_scf_crc buf r).getD p 0 = buf.getD p 0) →
        ∃ fr, emitted s0 calls (j + 1) = some fr ∧
          fr.getD p 0 =
            (built_frame (calls j).1 (calls j).2 (state_before s0 calls j)).getD p 0)) ∧
    count_calls (fun k => (emitted s0 calls k).isSome) n = n - 1 ∧
    (state_before s0 calls n).frame = n := by
  have hfr : ∀ k, k ≤ n → (state_before s0 calls k).frame = k := by
    intro k hk
    induction k with
    | zero => exact hframe
    | succ k ih =>
      rw [state_before_succ, (encode_adr_frame_built _ _ _ (hr k (by omega))).1, ih (by omega)]
  have hsc : ∀ k, (state_before s0 calls k).scfcrc ≠ 0 := by
    intro k; rw [state_before_scfcrc]; exact hcrc
  have h0 : 0 < n → returned s0 calls 0 = none := by
    intro hn
    exact (encode_adr_frame_built _ _ _ (hr 0 hn)).2.2.2.2.1 hcrc hframe
  have hstep : ∀ j, j + 1 < n →
      returned s0 calls (j + 1) = some ((j + 1) &&& 1) ∧
      slot (state_before s0 calls (j + 1)).mp2buffer ((j + 1) &&& 1) =
        built_frame (calls j).1 (calls j).2 (state_before s0 calls j) ∧
      emitted s0 calls (j + 1) =
        some (((calls (j + 1)).1.set_DAB_scf_crc
          (built_frame (calls j).1 (calls j).2 (state_before s0 calls j))
          (encoder_call (calls (j + 1)).1 (calls (j + 1)).2).1).take ADR_FRAME_LEN) := by
    intro j hj
    have hb := (encode_adr_frame_built (calls j).1 (calls j).2 (state_before s0 calls j)
      (hr j (by omega))).2.2.1
    rw [hfr j (by omega), ← state_before_succ] at hb
    obtain ⟨h1, h2⟩ := (encode_adr_frame_built (calls (j + 1)).1 (calls (j + 1)).2
      (state_before s0 calls (j + 1)) (hr (j + 1) hj)).2.2.2.2.2 (hsc _)
      (by rw [hfr (j + 1) (by omega)]; omega)
    rw [hfr (j + 1) (by omega)] at h1 h2
    rw [hb, ← state_before_succ] at h2
    refine ⟨h1, hb, ?_⟩
    unfold emitted
    rw [show returned s0 calls (j + 1) = _ from h1]
    simp only [Option.map_some']
    rw [h2]
  refine ⟨h0, ?_, ?_, hfr n (le_refl n)⟩
  · intro j hj
    obtain ⟨h1, h2, h3⟩ := hstep j hj
    refine ⟨h1, h2, h3, ?_⟩
    intro p hp hkeep
    exact ⟨_, h3, by rw [getD_take _ _ _ hp, hkeep]⟩
  · clear hfr
    induction n with
    | zero => rfl
    | succ m ih =>
      have hr2 : ∀ k, k < m → 0 < (encoder_call (calls k).1 (calls k).2).1 :=
        fun k hk => hr k (by omega)
      have ih2 := ih hr2 (fun hm => h0 (by omega)) (fun j hj => hstep j (by omega))
      rw [count_calls_succ, ih2]
      cases m with
      | zero =>
        simp only [emitted, h0 (by omega)]
        rfl
      | succ m =>
        simp [(hstep m (by omega)).2.2]

theorem delayed_emission_witness :
    ((initial_state station_TEST 0x53 1).scfcrc ≠ 0 ∧
      (initial_state station_TEST 0x53 1).frame = 0 ∧
      ∀ k, k < 3 →
        0 < (encoder_call ((fun _ => (sample_twolame, true) : Nat → Twolame × Bool) k).1
          ((fun _ => (sample_twolame, true) : Nat → Twolame × Bool) k).2).1) ∧
    count_calls (fun k =>
      (emitted (initial_state station_TEST 0x53 1) (fun _ => (sample_twolame, true)) k).isSome) 3
      = 3 - 1 :=
  ⟨⟨by decide, rfl, fun _ _ => (by decide : (0 : Int) < 576)⟩,
    (delayed_emission (initial_state station_TEST 0x53 1) (fun _ => (sample_twolame, true)) 3
      (by decide) rfl (fun _ _ => (by decide : (0 : Int) < 576))).2.2.1⟩

theorem immediate_emission_witness :
    ((initial_state station_TEST 0x53 0).scfcrc = 0 ∧
      (initial_state station_TEST 0x53 0).frame = 0) ∧
    count_calls (fun k => (emitted (initial_state station_TEST 0x53 0)
      (fun k => (sample_twolame, decide (k < 2))) k).isSome) 3 =
      (state_before (initial_state station_TEST 0x53 0)
        (fun k => (sample_twolame, decide (k < 2))) 3).frame :=
  ⟨⟨rfl, rfl⟩,
    ((immediate_emission (initial_state station_TEST 0x53 0)
      (fun k => (sample_twolame, decide (k < 2))) rfl rfl 3).2.2.1).trans
    (immediate_emission (initial_state station_TEST 0x53 0)
      (fun k => (sample_twolame, decide (k < 2))) rfl rfl 3).2.2.2⟩

/-! ### The insertion only sets bits -/
theorem getD_replicate_zero (n p : Nat) : (List.replicate n 0).getD p 0 = 0 := by
  rw [List.getD_eq_getElem?_getD, List.getElem?_replicate]
  split <;> rfl

/-- C18. `_insert_adr_ancillary` only sets bits: every byte of the frame after
the call is its value before the call OR-ed with the byte that the same call
leaves in an all-zero frame of the same length, and a bit that is 1 before
the call is 1 after it. -/
theorem insert_adr_ancillary_only_sets_bits (s : _adrenc_t) (data : List Nat) (p : Nat) :
    (_insert_adr_ancillary s data).2.getD p 0 =
        data.getD p 0 ||| (_insert_adr_ancillary s (List.replicate data.length 0)).2.getD p 0 ∧
    ∀ k, (data.getD p 0).testBit k = true →
      ((_insert_adr_ancillary s data).2.getD p 0).testBit k = true := by
  have hor : (_insert_adr_ancillary s data).2.getD p 0 =
      data.getD p 0 ||| (_insert_adr_ancillary s (List.replicate data.length 0)).2.getD p 0 := by
    rw [insert_adr_ancillary_snd, insert_adr_ancillary_snd]
    by_cases hp : p < data.length
    · apply Nat.eq_of_testBit_eq
      intro k
      rw [Nat.testBit_lor, foldl_interleave_testBit _ _ _ _ _ hp,
        foldl_interleave_testBit _ _ _ _ _ (by rw [List.length_replicate]; exact hp),
        getD_replicate_zero]
      simp
    · have h1 : ∀ l : List Nat, l.length = data.length → l.getD p 0 = 0 := by
        intro l hl
        rw [List.getD_eq_getElem?_getD, List.getElem?_eq_none (by omega)]
        rfl
      rw [h1 _ (foldl_interleave_length _ _ _), h1 _ rfl,
        h1 _ (by rw [foldl_interleave_length, List.length_replicate])]
      rfl
  refine ⟨hor, ?_⟩
  intro k hk
  rw [hor, Nat.testBit_lor, hk, Bool.true_or]

/-! ### The form of the control messages (adrenc.c:179-211) -/

theorem hexdigit_spec (n : Nat) (h : n < 16) :
    is_upper_hex (hexdigit n) ∧ hex_value (hexdigit n) = n := by
  unfold is_upper_hex hex_value hexdigit
  by_cases h10 : n < 10
  · rw [if_pos h10]
    refine ⟨Or.inl ⟨by omega, by omega⟩, ?_⟩
    rw [if_pos (by omega)]
    omega
  · rw [if_neg h10]
    refine ⟨Or.inr ⟨by omega, by omega⟩, ?_⟩
    rw [if_neg (by omega)]
    omega

theorem sum7_lt (l : List Nat) : sum7 l < 256 := Nat.mod_lt _ (by decide)

theorem nibbles (S : Nat) (h : S < 256) :
    S &&& 0x0F < 16 ∧ S >>> 4 < 16 ∧ (S &&& 0x0F) + 16 * (S >>> 4) = S := by
  have h1 : S &&& 0x0F = S % 16 := Nat.and_pow_two_sub_one_eq_mod S 4
  have h2 : S >>> 4 = S / 16 := Nat.shiftRight_eq_div_pow S 4
  rw [h1, h2]
  omega

/-- The template of message `k` is not cut and holds no zero byte when the
station string has at most 34 bytes and the mode character is not zero; it
starts with STX and ends with 0x04. -/
theorem template_text_whole (sid : List Nat) (mode k : Nat) (hk : k < 3)
    (hs : (cstr sid).length ≤ 34) (hm : k = 1 → mode % 256 ≠ 0) :
    cstr ((template_text sid mode k).take 38) = template_text sid mode k := by
  have h3 : k = 0 ∨ k = 1 ∨ k = 2 := by omega
  rcases h3 with h | h | h <;> subst h
  · simp [template_text, cstr, List.takeWhile_cons]
  · have := hm rfl
    simp [template_text, cstr, List.takeWhile_cons, this]
  · have hl : ([0x02, 0x16] ++ cstr sid ++ [0x23, 0x04]).length ≤ 38 := by
      simp; omega
    simp only [template_text]
    rw [List.take_of_length_le hl]
    apply cstr_of_no_zero
    intro b hb
    simp only [List.mem_append, List.mem_cons, List.mem_singleton, List.not_mem_nil,
      or_false] at hb
    rcases hb with (hb | hb) | hb
    · rcases hb with hb | hb <;> omega
    · exact cstr_no_zero _ b hb
    · rcases hb with hb | hb <;> omega

theorem template_text_last (sid : List Nat) (mode k : Nat) :
    ∃ pre, template_text sid mode k = pre ++ [0x04] := by
  match k with
  | 0 => exact ⟨[0x02, 0x11], rfl⟩
  | 1 => exact ⟨[0x02, 0x14, 0x45, 0x31, 0x43, 0x32, 0x30, 0x41, mode % 256, 0x32], rfl⟩
  | n + 2 => exact ⟨[0x02, 0x16] ++ cstr sid ++ [0x23], by simp [template_text]⟩

/-- C17. Each generated control message starts with STX, ends with ETX and
holds no zero byte; its two bytes before the ETX are upper-case hexadecimal
digits that, low nibble first, give the sum modulo 256 of `b & 0x7F` over all
bytes before them, the leading STX among these and, for a non-zero mode
character and a station string of at most 34 bytes (every string that `%s`
reads when `scfcrc` is 0 or 1 has at most 33), the 0x04 byte right before the
digits. -/
theorem generated_message_well_formed (s : _adrenc_t) (hk : s.cindex < 3) :
    (generated_message s).getD 0 0 = 0x02 ∧
    (generated_message s).getD ((generated_message s).length - 1) 0 = 0x03 ∧
    (∀ b ∈ generated_message s, b ≠ 0) ∧
    is_upper_hex ((generated_message s).getD ((generated_message s).length - 3) 0) ∧
    is_upper_hex ((generated_message s).getD ((generated_message s).length - 2) 0) ∧
    hex_value ((generated_message s).getD ((generated_message s).length - 3) 0) +
        16 * hex_value ((generated_message s).getD ((generated_message s).length - 2) 0) =
      sum7 ((generated_message s).take ((generated_message s).length - 3)) ∧
    4 ≤ (generated_message s).length ∧
    ((cstr (station_id_overread s.station_id s.scfcrc)).length ≤ 34 →
      (s.cindex = 1 → s.dc4_mode % 256 ≠ 0) →
      (generated_message s).getD ((generated_message s).length - 4) 0 = 0x04) := by
  rw [generated_message_framed s hk]
  generalize station_id_overread s.station_id s.scfcrc = sid
  obtain ⟨t, ht⟩ := template_body_head sid s.dc4_mode s.cindex
  have hne : cstr ((template_text sid s.dc4_mode s.cindex).take 38) ≠ [] := by
    rw [ht]; simp
  obtain ⟨h1, h2, h3, h4⟩ := framed_checksum _ hne
  have hS := sum7_lt ((framed (cstr ((template_text sid s.dc4_mode s.cindex).take 38))).take
    ((framed (cstr ((template_text sid s.dc4_mode s.cindex).take 38))).length - 3))
  obtain ⟨n1, n2, n3⟩ := nibbles _ hS
  have hl : ∀ body : List Nat, (framed body).length = body.length + 3 := by
    intro body; simp [framed]
  refine ⟨?_, h2, framed_no_zero _ (cstr_no_zero _), ?_, ?_, ?_, ?_, ?_⟩
  · rw [h1, ht]; rfl
  · rw [h3]; exact (hexdigit_spec _ n1).1
  · rw [h4]; exact (hexdigit_spec _ n2).1
  · rw [h3, h4, (hexdigit_spec _ n1).2, (hexdigit_spec _ n2).2]; exact n3
  · rw [hl, ht]; simp
  · intro hs hm
    rw [template_text_whole _ _ _ hk hs hm]
    obtain ⟨pre, hp⟩ := template_text_last sid s.dc4_mode s.cindex
    rw [hp, hl]
    simp only [framed, List.append_assoc, List.length_append, List.length_singleton,
      List.getD_eq_getElem?_getD]
    rw [List.getElem?_append_right (by omega)]
    simp [show pre.length + 1 + 3 - 4 - pre.length = 0 by omega]

theorem generated_message_well_formed_witness :
    (initial_state station_TEST 0x53 0).cindex < 3 ∧
    (generated_message (initial_state station_TEST 0x53 0)).getD 0 0 = 0x02 :=
  ⟨by decide, (generated_message_well_formed _ (by decide)).1⟩

theorem cstr_split_of_mem (l : List Nat) (h : 0 ∈ l) : ∃ rest, l = cstr l ++ 0 :: rest := by
  induction l with
  | nil => simp at h
  | cons b l ih =>
    by_cases hb : b = 0
    · subst hb
      exact ⟨l, by simp [cstr]⟩
    · have hl : 0 ∈ l := by
        rcases List.mem_cons.mp h with h | h
        · exact absurd h.symm hb
        · exact h
      obtain ⟨rest, hr⟩ := ih hl
      refine ⟨rest, ?_⟩
      have hc : cstr (b :: l) = b :: cstr l := by
        simp [cstr, List.takeWhile_cons, hb]
      rw [hc, List.cons_append, ← hr]

/-- C12 as stated fails: for the identity `TEST` the message of rotation index
2 is `02 16 54 45 53 54 23 04 46 37 03`; after the type byte come the four
characters and the `#`, not the 32 bytes of the buffer. -/
theorem station_message_counterexample :
    generated_message { initial_state station_TEST 0x53 0 with cindex := 2 } =
        [0x02, 0x16, 0x54, 0x45, 0x53, 0x54, 0x23, 0x04, 0x46, 0x37, 0x03] ∧
    ¬ (((generated_message { initial_state station_TEST 0x53 0 with cindex := 2 }).drop 2).take 32
          = station_TEST ∧
        (generated_message { initial_state station_TEST 0x53 0 with cindex := 2 }).getD 34 0
          = 0x23) := by
  decide

/-- C12, amended. For a 32-byte station identity with a zero byte, the message
of rotation index 2 carries the identity up to its first zero byte: the bytes
between the type byte 0x16 and the `#` are exactly the bytes of the buffer
before its first zero byte, fewer than 32. -/
theorem station_message_carries_string (s : _adrenc_t) (hk : s.cindex = 2)
    (hsid : s.station_id.length = 32) (hz : 0 ∈ s.station_id) :
    generated_message s = framed ([0x02, 0x16] ++ cstr s.station_id ++ [0x23, 0x04]) ∧
    (∃ rest, s.station_id = cstr s.station_id ++ 0 :: rest) ∧
    (cstr s.station_id).length < 32 ∧
    (generated_message s).getD 1 0 = 0x16 ∧
    ((generated_message s).drop 2).take (cstr s.station_id).length = cstr s.station_id ∧
    (generated_message s).getD (2 + (cstr s.station_id).length) 0 = 0x23 := by
  obtain ⟨rest, hr⟩ := cstr_split_of_mem s.station_id hz
  have hlen : (cstr s.station_id).length < 32 := by
    have := congrArg List.length hr
    rw [hsid, List.length_append, List.length_cons] at this
    omega
  have hm : generated_message s =
      framed ([0x02, 0x16] ++ cstr s.station_id ++ [0x23, 0x04]) := by
    rw [generated_message_framed s (by omega),
      template_text_whole _ _ _ (by omega)
        (by rw [station_string_of_mem _ _ hz]; omega) (by omega),
      hk]
    show framed ([0x02, 0x16] ++ cstr (station_id_overread s.station_id s.scfcrc) ++
      [0x23, 0x04]) = _
    rw [station_string_of_mem _ _ hz]
  refine ⟨hm, ⟨rest, hr⟩, hlen, ?_, ?_, ?_⟩
  · rw [hm]; simp [framed]
  · rw [hm]; simp [framed]
  · rw [hm]
    simp only [framed, List.append_assoc, List.cons_append, List.nil_append,
      List.getD_eq_getElem?_getD]
    rw [show 2 + (cstr s.station_id).length = (cstr s.station_id).length + 1 + 1 by omega,
      List.getElem?_cons_succ, List.getElem?_cons_succ,
      List.getElem?_append_right (le_refl _)]
    simp

theorem station_message_carries_string_witness :
    (({ initial_state station_TEST 0x53 0 with cindex := 2 } : _adrenc_t).cindex = 2 ∧
      ({ initial_state station_TEST 0x53 0 with cindex := 2 } : _adrenc_t).station_id.length = 32 ∧
      0 ∈ ({ initial_state station_TEST 0x53 0 with cindex := 2 } : _adrenc_t).station_id) ∧
    generated_message { initial_state station_TEST 0x53 0 with cindex := 2 } =
      framed ([0x02, 0x16] ++
        cstr ({ initial_state station_TEST 0x53 0 with cindex := 2 } : _adrenc_t).station_id ++
        [0x23, 0x04]) :=
  ⟨⟨rfl, by decide, by decide⟩,
    (station_message_carries_string _ rfl (by decide) (by decide)).1⟩

/-- C13 as stated fails: for the mode character `S` the message of rotation
index 1 has 14 bytes, the byte 0x04 standing between the `2` and the checksum
digits `BF`. -/
theorem program_message_counterexample :
    generated_message { initial_state station_TEST 0x53 0 with cindex := 1 } =
        [0x02, 0x14, 0x45, 0x31, 0x43, 0x32, 0x30, 0x41, 0x53, 0x32, 0x04, 0x42, 0x46, 0x03] ∧
    ¬ ∃ d1 d2, generated_message { initial_state station_TEST 0x53 0 with cindex := 1 } =
        [0x02, 0x14, 0x45, 0x31, 0x43, 0x32, 0x30, 0x41, 0x53, 0x32, d1, d2, 0x03] := by
  have h : generated_message { initial_state station_TEST 0x53 0 with cindex := 1 } =
      [0x02, 0x14, 0x45, 0x31, 0x43, 0x32, 0x30, 0x41, 0x53, 0x32, 0x04, 0x42, 0x46, 0x03] := by
    decide
  refine ⟨h, ?_⟩
  rintro ⟨d1, d2, hd⟩
  rw [h] at hd
  have := congrArg List.length hd
  simp at this

/-- C13, amended. For every non-zero mode character the message of rotation
index 1 is exactly the 14 bytes STX, 0x14, `E`, `1`, `C`, `2`, `0`, `A`, the
mode character, `2`, 0x04, the two checksum digits (low nibble first, of the
sum over the eleven bytes before them) and ETX. -/
theorem program_message_bytes (s : _adrenc_t) (hk : s.cindex = 1)
    (hm : s.dc4_mode % 256 ≠ 0) :
    generated_message s =
        [0x02, 0x14, 0x45, 0x31, 0x43, 0x32, 0x30, 0x41, s.dc4_mode % 256, 0x32, 0x04,
          hexdigit (sum7 [0x02, 0x14, 0x45, 0x31, 0x43, 0x32, 0x30, 0x41, s.dc4_mode % 256,
            0x32, 0x04] &&& 0x0F),
          hexdigit (sum7 [0x02, 0x14, 0x45, 0x31, 0x43, 0x32, 0x30, 0x41, s.dc4_mode % 256,
            0x32, 0x04] >>> 4),
          0x03] ∧
    (generated_message s).length = 14 := by
  have h : generated_message s =
      framed [0x02, 0x14, 0x45, 0x31, 0x43, 0x32, 0x30, 0x41, s.dc4_mode % 256, 0x32, 0x04] := by
    rw [generated_message_framed s (by omega), hk]
    congr 1
    simp [template_text, cstr, List.takeWhile_cons, hm]
  rw [h]
  exact ⟨rfl, rfl⟩

theorem program_message_bytes_witness :
    (({ initial_state station_TEST 0x53 0 with cindex := 1 } : _adrenc_t).cindex = 1 ∧
      ({ initial_state station_TEST 0x53 0 with cindex := 1 } : _adrenc_t).dc4_mode % 256 ≠ 0) ∧
    (generated_message { initial_state station_TEST 0x53 0 with cindex := 1 }).length = 14 :=
  ⟨⟨rfl, by decide⟩, (program_message_bytes _ rfl (by decide)).2⟩

/-! ### Defects met at concrete inputs -/

set_option maxRecDepth 1000000 in
/-- C11, the code at a failing input. The station identity `ááááá` is encoded
as five codes 0x80; with the integrity check off, the ninth call of
`_insert_adr_ancillary` fetches three of them as its control bytes, so the
ancillary bytes 15, 16 and 17 that are block-coded all have bit 7 set. -/
theorem control_flags_set_by_data :
    _encode_ebu_string (List.replicate 32 0)
        [0xC3, 0xA1, 0xC3, 0xA1, 0xC3, 0xA1, 0xC3, 0xA1, 0xC3, 0xA1] 32 =
      List.replicate 5 0x80 ++ List.replicate 27 0 ∧
    (ancillary_bytes (state_at (initial_state (List.replicate 5 0x80 ++ List.replicate 27 0) 0x53 0)
        (fun _ => List.replicate 577 0) 8)).1 =
      List.replicate 15 0 ++ [0x80, 0x80, 0x80] := by
  decide

set_option maxRecDepth 1000000 in
/-- C15, the code at a failing input. A station identity of 32 characters `A`
fills `station_id` with 32 non-zero bytes; with the integrity check on, `%s`
runs on into `scfcrc`.  After 20 control bytes (messages 0 and 1) the cursor
is at the terminator with rotation index 2; the template then written has 37
characters, the message 40, and the zero byte that ends it is stored at
offset 40, past the 40 bytes of `cmsg`: the buffer of the model has 41 bytes
after the seventh call of `_insert_adr_ancillary`. -/
theorem message_overruns_buffer :
    _encode_ebu_string (List.replicate 32 0) (List.replicate 32 0x41) 32 =
      List.replicate 32 0x41 ∧
    (control_bytes 20
      (initial_state (List.replicate 32 0x41) 0x53 1)).2.cindex = 2 ∧
    (control_bytes 20
      (initial_state (List.replicate 32 0x41) 0x53 1)).2.cmsg.length
      = 40 ∧
    (cstr (message_template (control_bytes 20
      (initial_state (List.replicate 32 0x41) 0x53 1)).2).cmsg).length
      = 37 ∧
    (generated_message (control_bytes 20
      (initial_state (List.replicate 32 0x41) 0x53 1)).2).length = 40 ∧
    (next_message (control_bytes 20
      (initial_state (List.replicate 32 0x41) 0x53 1)).2).cmsg.length
      = 41 ∧
    (state_at (initial_state (List.replicate 32 0x41) 0x53 1)
      (fun _ => List.replicate 577 0) 7).cmsg.length = 41 := by
  decide

set_option maxRecDepth 1000000 in
/-- C19, the code at a failing input. The station identity of twelve euro
signs is twelve codes 0xA9 and twenty zero bytes; `_decode_ebu_string` builds
from it a string of 36 bytes, more than the 33-byte buffer `id` holds. -/
theorem decoded_string_overruns_buffer :
    _encode_ebu_string (List.replicate 32 0)
        ((List.replicate 12 [0xE2, 0x82, 0xAC]).flatMap id) 32 =
      List.replicate 12 0xA9 ++ List.replicate 20 0 ∧
    (_decode_ebu_string (List.replicate 12 0xA9 ++ List.replicate 20 0) 32).length = 36 := by
  decide

/-! ### Decoding UTF-8 (adrenc.c:78-120) -/

set_option maxRecDepth 100000 in
/-- The masks of `_utf8next` on a byte, as ranges. -/
theorem byte_masks : ∀ b : Fin 256,
    ((b.val &&& 0xC0 = 0x80) ↔ is_continuation b.val) ∧
    ((b.val &&& 0xE0 = 0xC0) ↔ (0xC0 ≤ b.val ∧ b.val ≤ 0xDF)) ∧
    ((b.val &&& 0xF0 = 0xE0) ↔ (0xE0 ≤ b.val ∧ b.val ≤ 0xEF)) ∧
    ((b.val &&& 0xF8 = 0xF0) ↔ (0xF0 ≤ b.val ∧ b.val ≤ 0xF7)) ∧
    (is_continuation b.val → b.val &&& 0x3F = b.val - 0x80) ∧
    (0xC0 ≤ b.val ∧ b.val ≤ 0xDF → b.val &&& 0x1F = b.val - 0xC0) ∧
    (0xE0 ≤ b.val ∧ b.val ≤ 0xEF → b.val &&& 0x0F = b.val - 0xE0) ∧
    (0xF0 ≤ b.val ∧ b.val ≤ 0xF7 → b.val &&& 0x07 = b.val - 0xF0) := by
  decide

theorem shift_or (u v : Nat) (h : v < 64) : (u <<< 6) ||| v = u * 64 + v := by
  rw [Nat.shiftLeft_eq, Nat.mul_comm, ← Nat.mul_add_lt_is_or (i := 6) h]

theorem utf8_tail_bad (str : List Nat) (b c u next : Nat) (hb : str.getD (c + 1) 0 < 256)
    (h : ¬ is_continuation (str.getD (c + 1) 0)) :
    utf8_tail str (b + 1) c u next = (none, next) := by
  have := (byte_masks ⟨_, hb⟩).1
  simp only at this
  rw [utf8_tail, if_pos (fun hc => h (this.mp hc))]

theorem utf8_tail_good (str : List Nat) (b c u next : Nat)
    (h : is_continuation (str.getD (c + 1) 0)) :
    utf8_tail str (b + 1) c u next =
      utf8_tail str b (c + 1) (u * 64 + (str.getD (c + 1) 0 - 0x80)) (next + 1) := by
  have hb : str.getD (c + 1) 0 < 256 := by unfold is_continuation at h; omega
  have hm := byte_masks ⟨_, hb⟩
  simp only at hm
  have h1 : str.getD (c + 1) 0 &&& 0xC0 = 0x80 := hm.1.mpr h
  have h2 : str.getD (c + 1) 0 &&& 0x3F = str.getD (c + 1) 0 - 0x80 := hm.2.2.2.2.1 h
  rw [utf8_tail, if_neg (by rw [h1]; simp), h2,
    shift_or _ _ (by unfold is_continuation at h; omega)]

theorem utf8next_lead2 (str : List Nat) (h : 0xC0 ≤ str.getD 0 0 ∧ str.getD 0 0 ≤ 0xDF) :
    _utf8next str = utf8_finish (utf8_tail str 1 0 (str.getD 0 0 - 0xC0) 1) 0x00080 := by
  have hm := byte_masks ⟨str.getD 0 0, by omega⟩
  simp only at hm
  unfold _utf8next
  rw [if_neg (by omega), if_pos (hm.2.1.mpr h), hm.2.2.2.2.2.1 h]

theorem utf8next_lead3 (str : List Nat) (h : 0xE0 ≤ str.getD 0 0 ∧ str.getD 0 0 ≤ 0xEF) :
    _utf8next str = utf8_finish (utf8_tail str 2 0 (str.getD 0 0 - 0xE0) 1) 0x00800 := by
  have hm := byte_masks ⟨str.getD 0 0, by omega⟩
  simp only at hm
  unfold _utf8next
  rw [if_neg (by omega), if_neg (fun hc => by have := hm.2.1.mp hc; omega),
    if_pos (hm.2.2.1.mpr h), hm.2.2.2.2.2.2.1 h]

theorem utf8next_lead4 (str : List Nat) (h : 0xF0 ≤ str.getD 0 0 ∧ str.getD 0 0 ≤ 0xF7) :
    _utf8next str = utf8_finish (utf8_tail str 3 0 (str.getD 0 0 - 0xF0) 1) 0x10000 := by
  have hm := byte_masks ⟨str.getD 0 0, by omega⟩
  simp only at hm
  unfold _utf8next
  rw [if_neg (by omega), if_neg (fun hc => by have := hm.2.1.mp hc; omega),
    if_neg (fun hc => by have := hm.2.2.1.mp hc; omega),
    if_pos (hm.2.2.2.1.mpr h), hm.2.2.2.2.2.2.2 h]

theorem utf8next_no_lead (str : List Nat)
    (h : (0x80 ≤ str.getD 0 0 ∧ str.getD 0 0 ≤ 0xBF) ∨
      (0xF8 ≤ str.getD 0 0 ∧ str.getD 0 0 ≤ 0xFF)) :
    _utf8next str = (0xFFFD, 1) := by
  have hm := byte_masks ⟨str.getD 0 0, by omega⟩
  simp only at hm
  unfold _utf8next
  rw [if_neg (by omega), if_neg (fun hc => by have := hm.2.1.mp hc; omega),
    if_neg (fun hc => by have := hm.2.2.1.mp hc; omega),
    if_neg (fun hc => by have := hm.2.2.2.1.mp hc; omega)]

theorem utf8_finish_none (next m : Nat) : utf8_finish (none, next) m = (0xFFFD, next) := rfl

theorem utf8_finish_some (u next m : Nat) :
    utf8_finish (some u, next) m = if u < m then (0xFFFD, next) else (u, next) := rfl

theorem utf8_tail_zero (str : List Nat) (c u next : Nat) :
    utf8_tail str 0 c u next = (some u, next) := by
  rw [utf8_tail]

/-- C14. `_utf8next` returns U+FFFD for every string of bytes that starts with
a malformed sequence: a first byte 0x80 to 0xBF or 0xF8 to 0xFF, a lead byte
of a 2-, 3- or 4-byte form not followed by that many continuation bytes, or
an overlong 2-, 3- or 4-byte form. -/
theorem utf8next_malformed (str : List Nat) (hbytes : ∀ i, str.getD i 0 < 256)
    (h : malformed_start (str.getD 0 0) (str.getD 1 0) (str.getD 2 0) (str.getD 3 0)) :
    (_utf8next str).1 = 0xFFFD := by
  unfold malformed_start at h
  rcases h with h | h | ⟨h1, h2, h3⟩ | ⟨h1, h2, h3⟩ | ⟨h1, h2, h3⟩ | ⟨h1, h2, h3, h4⟩ |
    ⟨h1, h2, h3, h4, h5⟩ | ⟨h1, h2, h3, h4, h5, h6⟩
  · rw [utf8next_no_lead str (Or.inl h)]
  · rw [utf8next_no_lead str (Or.inr h)]
  · rw [utf8next_lead2 str ⟨h1, h2⟩, utf8_tail_bad _ _ _ _ _ (hbytes _) h3, utf8_finish_none]
  · rw [utf8next_lead3 str ⟨h1, h2⟩]
    by_cases hc1 : is_continuation (str.getD 1 0)
    · have hc2 : ¬ is_continuation (str.getD 2 0) := by
        rcases h3 with h3 | h3
        · exact absurd hc1 h3
        · exact h3
      rw [utf8_tail_good _ _ _ _ _ hc1, utf8_tail_bad _ _ _ _ _ (hbytes _) hc2, utf8_finish_none]
    · rw [utf8_tail_bad _ _ _ _ _ (hbytes _) hc1, utf8_finish_none]
  · rw [utf8next_lead4 str ⟨h1, h2⟩]
    by_cases hc1 : is_continuation (str.getD 1 0)
    · rw [utf8_tail_good _ _ _ _ _ hc1]
      by_cases hc2 : is_continuation (str.getD 2 0)
      · have hc3 : ¬ is_continuation (str.getD 3 0) := by
          rcases h3 with h3 | h3 | h3
          · exact absurd hc1 h3
          · exact absurd hc2 h3
          · exact h3
        rw [utf8_tail_good _ _ _ _ _ hc2, utf8_tail_bad _ _ _ _ _ (hbytes _) hc3,
          utf8_finish_none]
      · rw [utf8_tail_bad _ _ _ _ _ (hbytes _) hc2, utf8_finish_none]
    · rw [utf8_tail_bad _ _ _ _ _ (hbytes _) hc1, utf8_finish_none]
  · rw [utf8next_lead2 str ⟨h1, h2⟩, utf8_tail_good _ _ _ _ _ h3, utf8_tail_zero,
      utf8_finish_some, if_pos h4]
  · rw [utf8next_lead3 str ⟨h1, h2⟩, utf8_tail_good _ _ _ _ _ h3, utf8_tail_good _ _ _ _ _ h4,
      utf8_tail_zero, utf8_finish_some,
      if_pos (by simp only [Nat.zero_add, Nat.reduceAdd]; omega)]
  · rw [utf8next_lead4 str ⟨h1, h2⟩, utf8_tail_good _ _ _ _ _ h3, utf8_tail_good _ _ _ _ _ h4,
      utf8_tail_good _ _ _ _ _ h5, utf8_tail_zero, utf8_finish_some,
      if_pos (by simp only [Nat.zero_add, Nat.reduceAdd]; omega)]

set_option maxRecDepth 100000 in
theorem utf8next_malformed_witness :
    ((∀ i, [0xE2, 0x82, 0x41].getD i 0 < 256) ∧
      malformed_start ([0xE2, 0x82, 0x41].getD 0 0) ([0xE2, 0x82, 0x41].getD 1 0)
        ([0xE2, 0x82, 0x41].getD 2 0) ([0xE2, 0x82, 0x41].getD 3 0)) ∧
    (_utf8next [0xE2, 0x82, 0x41]).1 = 0xFFFD :=
  have hb : ∀ i, [0xE2, 0x82, 0x41].getD i 0 < 256 := by
    intro i
    match i with
    | 0 => decide
    | 1 => decide
    | 2 => decide
    | n + 3 => simp
  have hm : malformed_start ([0xE2, 0x82, 0x41].getD 0 0) ([0xE2, 0x82, 0x41].getD 1 0)
      ([0xE2, 0x82, 0x41].getD 2 0) ([0xE2, 0x82, 0x41].getD 3 0) := by
    unfold malformed_start is_continuation
    decide
  ⟨⟨hb, hm⟩, utf8next_malformed _ hb hm⟩

theorem utf8next_ascii (str : List Nat) (h : str.getD 0 0 < 0x80) :
    _utf8next str = (str.getD 0 0, 1) := by
  unfold _utf8next
  rw [if_pos h]

/-- C16. For every code point `U` up to 0x10FFFF (the surrogates are not
treated apart) and every string that begins with the shortest-form UTF-8
encoding of `U`, of 1 to 4 bytes, `_utf8next` returns `U` and leaves `*next`
right after the encoding. -/
theorem utf8next_decodes (U : Nat) (hU : U ≤ 0x10FFFF) (rest : List Nat) :
    _utf8next (utf8_encode U ++ rest) = (U, (utf8_encode U).length) ∧
    1 ≤ (utf8_encode U).length ∧ (utf8_encode U).length ≤ 4 := by
  unfold utf8_encode
  by_cases h1 : U < 0x80
  · simp only [if_pos h1]
    refine ⟨?_, by simp, by simp⟩
    rw [utf8next_ascii _ (by simpa using h1)]
    simp
  · simp only [if_neg h1]
    by_cases h2 : U < 0x800
    · simp only [if_pos h2]
      refine ⟨?_, by simp, by simp⟩
      have g0 : ([0xC0 + U / 64, 0x80 + U % 64] ++ rest).getD 0 0 = 0xC0 + U / 64 := rfl
      have g1 : ([0xC0 + U / 64, 0x80 + U % 64] ++ rest).getD (0 + 1) 0 = 0x80 + U % 64 := rfl
      rw [utf8next_lead2 _ (by rw [g0]; omega),
        utf8_tail_good _ _ _ _ _ (by rw [g1]; unfold is_continuation; omega),
        utf8_tail_zero, utf8_finish_some, g0, g1, if_neg (by omega)]
      simp only [List.length_cons, List.length_nil, Prod.mk.injEq, and_true]
      omega
    · simp only [if_neg h2]
      by_cases h3 : U < 0x10000
      · simp only [if_pos h3]
        refine ⟨?_, by simp, by simp⟩
        have g0 : ([0xE0 + U / 4096, 0x80 + U / 64 % 64, 0x80 + U % 64] ++ rest).getD 0 0 =
            0xE0 + U / 4096 := rfl
        have g1 : ([0xE0 + U / 4096, 0x80 + U / 64 % 64, 0x80 + U % 64] ++ rest).getD (0 + 1) 0 =
            0x80 + U / 64 % 64 := rfl
        have g2 : ([0xE0 + U / 4096, 0x80 + U / 64 % 64, 0x80 + U % 64] ++ rest).getD
            (0 + 1 + 1) 0 = 0x80 + U % 64 := rfl
        rw [utf8next_lead3 _ (by rw [g0]; omega),
          utf8_tail_good _ _ _ _ _ (by rw [g1]; unfold is_continuation; omega),
          utf8_tail_good _ _ _ _ _ (by rw [g2]; unfold is_continuation; omega),
          utf8_tail_zero, utf8_finish_some, g0, g1, g2, if_neg (by omega)]
        simp only [List.length_cons, List.length_nil, Prod.mk.injEq, and_true]
        omega
      · simp only [if_neg h3]
        refine ⟨?_, by simp, by simp⟩
        have g0 : ([0xF0 + U / 262144, 0x80 + U / 4096 % 64, 0x80 + U / 64 % 64,
            0x80 + U % 64] ++ rest).getD 0 0 = 0xF0 + U / 262144 := rfl
        have g1 : ([0xF0 + U / 262144, 0x80 + U / 4096 % 64, 0x80 + U / 64 % 64,
            0x80 + U % 64] ++ rest).getD (0 + 1) 0 = 0x80 + U / 4096 % 64 := rfl
        have g2 : ([0xF0 + U / 262144, 0x80 + U / 4096 % 64, 0x80 + U / 64 % 64,
            0x80 + U % 64] ++ rest).getD (0 + 1 + 1) 0 = 0x80 + U / 64 % 64 := rfl
        have g3 : ([0xF0 + U / 262144, 0x80 + U / 4096 % 64, 0x80 + U / 64 % 64,
            0x80 + U % 64] ++ rest).getD (0 + 1 + 1 + 1) 0 = 0x80 + U % 64 := rfl
        rw [utf8next_lead4 _ (by rw [g0]; omega),
          utf8_tail_good _ _ _ _ _ (by rw [g1]; unfold is_continuation; omega),
          utf8_tail_good _ _ _ _ _ (by rw [g2]; unfold is_continuation; omega),
          utf8_tail_good _ _ _ _ _ (by rw [g3]; unfold is_continuation; omega),
          utf8_tail_zero, utf8_finish_some, g0, g1, g2, g3, if_neg (by omega)]
        simp only [List.length_cons, List.length_nil, Prod.mk.injEq, and_true]
        omega

theorem utf8next_decodes_witness :
    (0x20AC ≤ 0x10FFFF ∧ utf8_encode 0x20AC = [0xE2, 0x82, 0xAC]) ∧
    _utf8next (utf8_encode 0x20AC ++ [0x41]) = (0x20AC, (utf8_encode 0x20AC).length) :=
  ⟨⟨by decide, by decide⟩, (utf8next_decodes 0x20AC (by decide) [0x41]).1⟩

/-! ### `_utf8next` stays inside the string -/

theorem getD_cstr_length (str : List Nat) : str.getD (cstr str).length 0 = 0 := by
  induction str with
  | nil => rfl
  | cons b l ih =>
    by_cases hb : b = 0
    · subst hb
      simp [cstr]
    · have hc : cstr (b :: l) = b :: cstr l := by
        simp [cstr, List.takeWhile_cons, hb]
      rw [hc]
      simpa using ih

theorem getD_lt_cstr_length (str : List Nat) (i : Nat) (h : i < (cstr str).length) :
    str.getD i 0 ≠ 0 := by
  induction str generalizing i with
  | nil => simp [cstr] at h
  | cons b l ih =>
    by_cases hb : b = 0
    · subst hb
      simp [cstr] at h
    · have hc : cstr (b :: l) = b :: cstr l := by
        simp [cstr, List.takeWhile_cons, hb]
      rw [hc] at h
      cases i with
      | zero => simpa using hb
      | succ i =>
        have := ih i (by simpa using h)
        simpa using this

theorem utf8_tail_next_le (str : List Nat) (b : Nat) :
    ∀ c u next, (utf8_tail str b c u next).2 ≤ next + b := by
  induction b with
  | zero => intro c u next; rw [utf8_tail]; exact le_refl _
  | succ b ih =>
    intro c u next
    rw [utf8_tail]
    split
    · exact Nat.le_add_right _ _
    · have := ih (c + 1) ((u <<< 6) ||| (str.getD (c + 1) 0 &&& 0x3F)) (next + 1)
      omega

/-- The loop never moves `*next` past a zero byte at offset `z`. -/
theorem utf8_tail_in_string (str : List Nat) (z : Nat) (hz : str.getD z 0 = 0) (b : Nat) :
    ∀ c u, c + 1 ≤ z → (utf8_tail str b c u (c + 1)).2 ≤ z := by
  induction b with
  | zero => intro c u h; rw [utf8_tail]; exact h
  | succ b ih =>
    intro c u h
    rw [utf8_tail]
    split
    · exact h
    · rename_i hc
      have hne : c + 1 ≠ z := by
        intro he
        rw [he, hz] at hc
        exact hc (by decide)
      exact ih (c + 1) _ (by omega)

/-- The loop gives the same on two strings that agree up to a zero byte at
offset `z`. -/
theorem utf8_tail_agree (s1 s2 : List Nat) (z : Nat) (hz : s1.getD z 0 = 0)
    (hag : ∀ i, i ≤ z → s2.getD i 0 = s1.getD i 0) (b : Nat) :
    ∀ c u next, c + 1 ≤ z → utf8_tail s2 b c u next = utf8_tail s1 b c u next := by
  induction b with
  | zero => intro c u next _; rw [utf8_tail, utf8_tail]
  | succ b ih =>
    intro c u next h
    rw [utf8_tail, utf8_tail, hag (c + 1) h]
    split
    · rfl
    · rename_i hc
      have hne : c + 1 ≠ z := by
        intro he
        rw [he, hz] at hc
        exact hc (by decide)
      exact ih (c + 1) _ _ (by omega)

theorem cstr_length_pos (str : List Nat) (h0 : str.getD 0 0 ≠ 0) : 1 ≤ (cstr str).length := by
  cases str with
  | nil => exact absurd rfl h0
  | cons b l =>
    have hb : b ≠ 0 := h0
    simp [cstr, List.takeWhile_cons, hb]

theorem utf8next_le_four (str : List Nat) : (_utf8next str).2 ≤ 4 := by
  unfold _utf8next
  split
  · exact (by decide : 1 ≤ 4)
  · split
    · rw [utf8_finish_snd]
      have := utf8_tail_next_le str 1 0 (str.getD 0 0 &&& 0x1F) 1
      omega
    · split
      · rw [utf8_finish_snd]
        have := utf8_tail_next_le str 2 0 (str.getD 0 0 &&& 0x0F) 1
        omega
      · split
        · rw [utf8_finish_snd]
          have := utf8_tail_next_le str 3 0 (str.getD 0 0 &&& 0x07) 1
          omega
        · exact (by decide : 1 ≤ 4)

theorem utf8next_in_string (str : List Nat) (h0 : str.getD 0 0 ≠ 0) :
    (_utf8next str).2 ≤ (cstr str).length := by
  have hz := getD_cstr_length str
  have hpos := cstr_length_pos str h0
  unfold _utf8next
  split
  · exact hpos
  · split
    · rw [utf8_finish_snd]; exact utf8_tail_in_string str _ hz 1 0 _ hpos
    · split
      · rw [utf8_finish_snd]; exact utf8_tail_in_string str _ hz 2 0 _ hpos
      · split
        · rw [utf8_finish_snd]; exact utf8_tail_in_string str _ hz 3 0 _ hpos
        · exact hpos

theorem utf8next_agree (s1 s2 : List Nat) (h0 : s1.getD 0 0 ≠ 0)
    (hag : ∀ i, i ≤ (cstr s1).length → s2.getD i 0 = s1.getD i 0) :
    _utf8next s2 = _utf8next s1 := by
  have hz := getD_cstr_length s1
  have hpos := cstr_length_pos s1 h0
  have hfirst : s2.getD 0 0 = s1.getD 0 0 := hag 0 (Nat.zero_le _)
  unfold _utf8next
  rw [hfirst, utf8_tail_agree s1 s2 _ hz hag 1 0 _ 1 hpos,
    utf8_tail_agree s1 s2 _ hz hag 2 0 _ 1 hpos, utf8_tail_agree s1 s2 _ hz hag 3 0 _ 1 hpos]

theorem cstr_drop (l : List Nat) : ∀ k, k ≤ (cstr l).length → cstr (l.drop k) = (cstr l).drop k := by
  induction l with
  | nil => intro k _; simp [cstr]
  | cons b l ih =>
    intro k hk
    cases k with
    | zero => rfl
    | succ k =>
      by_cases hb : b = 0
      · subst hb
        simp [cstr] at hk
      · have hc : cstr (b :: l) = b :: cstr l := by
          simp [cstr, List.takeWhile_cons, hb]
        rw [hc] at hk ⊢
        simp only [List.drop_succ_cons]
        exact ih k (by simpa using hk)

theorem encode_src_offset_le (n : Nat) :
    ∀ src : List Nat, encode_src_offset n src ≤ (cstr src).length := by
  induction n with
  | zero => intro src; exact Nat.zero_le _
  | succ n ih =>
    intro src
    rw [encode_src_offset]
    split
    · rename_i h0
      have h1 := utf8next_in_string src h0
      have h2 := ih (src.drop (_utf8next src).2)
      rw [cstr_drop src _ h1, List.length_drop] at h2
      omega
    · exact Nat.zero_le _

theorem encode_chars_passes (n : Nat) :
    ∀ (i : Nat) (src dst : List Nat), (encode_chars n i src dst).2 ≤ i + n := by
  induction n with
  | zero => intro i src dst; rw [encode_chars]; exact le_refl _
  | succ n ih =>
    intro i src dst
    rw [encode_chars]
    split
    · have := ih (i + 1) (src.drop (_utf8next src).2) (dst.set i (ebu_code (_utf8next src).1))
      omega
    · exact Nat.le_add_right _ _

/-- C20. On a string whose first byte is not zero, `_utf8next` moves `*next`
between 1 and 4 bytes on and not past the terminating zero (at the offset
`(cstr str).length`), and its result is the same on every string that agrees
with this one up to that zero: no byte after it is read.  So the first loop
of `_encode_ebu_string` moves `src` on in every pass, never past the
terminating zero, and makes at most `len` passes. -/
theorem utf8next_stays_in_string (str : List Nat) (h0 : str.getD 0 0 ≠ 0) :
    1 ≤ (_utf8next str).2 ∧ (_utf8next str).2 ≤ 4 ∧
    (_utf8next str).2 ≤ (cstr str).length ∧
    str.getD (cstr str).length 0 = 0 ∧
    (∀ other : List Nat, (∀ i, i ≤ (cstr str).length → other.getD i 0 = str.getD i 0) →
      _utf8next other = _utf8next str) ∧
    (∀ n, encode_src_offset (n + 1) str =
      (_utf8next str).2 + encode_src_offset n (str.drop (_utf8next str).2)) ∧
    (∀ n, encode_src_offset n str ≤ (cstr str).length) ∧
    (∀ len dst, (encode_chars len 0 str dst).2 ≤ len) := by
  refine ⟨utf8next_advances str, utf8next_le_four str, utf8next_in_string str h0,
    getD_cstr_length str, fun other hag => utf8next_agree str other h0 hag, ?_,
    fun n => encode_src_offset_le n str, ?_⟩
  · intro n
    rw [encode_src_offset, if_pos h0]
  · intro len dst
    have := encode_chars_passes len 0 str dst
    omega

theorem utf8next_stays_in_string_witness :
    [0xE2, 0x82, 0x00, 0x41].getD 0 0 ≠ 0 ∧
    (_utf8next [0xE2, 0x82, 0x00, 0x41]).2 ≤ (cstr [0xE2, 0x82, 0x00, 0x41]).length :=
  ⟨by decide, (utf8next_stays_in_string [0xE2, 0x82, 0x00, 0x41] (by decide)).2.2.1⟩

/-! ### Where the defects do not show -/

/-- With control bytes below 0x80 the flag bits are as the comments of
adrenc.c:217-220 say: bit 7 of the ancillary bytes 15 and 16 is 0 and bit 7 of
byte 17 is the integrity-check setting. -/
theorem control_flags_seven_bit (s : _adrenc_t) (hs : s.scfcrc ≤ 1)
    (hc : ∀ i, (control_data s).1.getD i 0 < 0x80) :
    ((ancillary_bytes s).1.getD 15 0).testBit 7 = false ∧
    ((ancillary_bytes s).1.getD 16 0).testBit 7 = false ∧
    ((ancillary_bytes s).1.getD 17 0).testBit 7 = decide (s.scfcrc = 1) := by
  have h7 : ∀ x : Nat, x < 0x80 → x.testBit 7 = false :=
    fun x hx => Nat.testBit_lt_two_pow (by simpa using hx)
  have e15 : spec_ad s 15 = (control_data s).1.getD 0 0 := rfl
  have e16 : spec_ad s 16 = (control_data s).1.getD 1 0 := rfl
  have e17 : spec_ad s 17 = ((control_data s).1.getD 2 0 ||| (s.scfcrc <<< 7)) % 2 ^ 8 := rfl
  rw [ancillary_bytes_getD s 15 (by decide), ancillary_bytes_getD s 16 (by decide),
    ancillary_bytes_getD s 17 (by decide), e15, e16, e17]
  refine ⟨h7 _ (hc 0), h7 _ (hc 1), ?_⟩
  rw [Nat.testBit_mod_two_pow, Nat.testBit_lor, h7 _ (hc 2)]
  have h01 : s.scfcrc = 0 ∨ s.scfcrc = 1 := by omega
  rcases h01 with h | h <;> rw [h] <;> decide

/-- A station string of at most 32 bytes gives messages that fit: at most 39
bytes, and `cmsg` keeps its 40 bytes.  This is so when the 32 bytes of the
array hold a zero byte, and when `scfcrc` is 0. -/
theorem message_fits (s : _adrenc_t) (hk : s.cindex < 3) (hlen : s.cmsg.length = 40)
    (hfit : (cstr (station_id_overread s.station_id s.scfcrc)).length ≤ 32) :
    (generated_message s).length ≤ 39 ∧ (next_message s).cmsg.length = 40 := by
  obtain ⟨rest, hn, hl⟩ := next_message_spec s hk (by omega)
  have hl := hl hlen hfit
  rw [generated_message_eq s hk (by omega)]
  constructor
  · rw [List.length_append, List.length_cons] at hl
    omega
  · rw [hn]
    exact hl

set_option maxRecDepth 100000 in
theorem charset_entry_length : ∀ j : Fin 256, (_charset.getD j.val []).length ≤ 3 := by
  decide

/-- The string that `_decode_ebu_string` builds has at most three bytes for
each of the `len` codes. -/
theorem decode_chars_length (n : Nat) :
    ∀ src dst : List Nat, (decode_chars n src dst).length ≤ dst.length + 3 * n := by
  induction n with
  | zero => intro src dst; rw [decode_chars]; omega
  | succ n ih =>
    intro src dst
    rw [decode_chars]
    split
    · have h := ih (src.drop 1) (dst ++ (if (_charset.getD (src.getD 0 0) []).getD 0 0 ≠ 0
          then _charset.getD (src.getD 0 0) [] else [0x3F]))
      have hp : (if (_charset.getD (src.getD 0 0) []).getD 0 0 ≠ 0
          then _charset.getD (src.getD 0 0) [] else [0x3F]).length ≤ 3 := by
        split
        · by_cases hj : src.getD 0 0 < 256
          · exact charset_entry_length ⟨_, hj⟩
          · rw [List.getD_eq_getElem?_getD, List.getElem?_eq_none (by rw [charset_length]; omega)]
            exact Nat.zero_le _
        · exact (by decide : 1 ≤ 3)
      rw [List.length_append] at h
      omega
    · omega

end Adr
